import Mathlib

/-!
Verification development for the automated-blog runner
(`runner.py`, `utils.py`, `manager.py`, `site_deployer.py`,
`content_generator.py`).

Modelling conventions:
* Timestamps are natural numbers counting minutes (the code only compares
  timestamps and adds minute/hour deltas; `timedelta(hours=24)` is 1440
  minutes).  `datetime.isoformat`/`fromisoformat` are modelled by an
  injective decimal rendering of that number (`natToDec`/`parseDec`).
* A history record is a Python dict with keys `timestamp`, `filename`,
  `title`, `product_link`.  Records loaded from legacy timestamp-only
  lines lack the other keys; the code only ever reads them with
  `.get(...)`, so an absent string field is modelled as `""`.
* Effectful calls (`deploy_to_ftp`, `delete_from_ftp`, `delete_from_disk`,
  user confirmation, directory listing) are passed in as pure functions /
  values describing their outcomes, and the functions additionally return
  an event trace (`Ev`) recording the calls and history mutations they
  perform, in order.
* Text processed by `_call_ollama`, `sanitize_filename` and the history
  file is modelled as `List Char`; a history file is a list of lines
  (newlines stripped).
-/

namespace Blog

/-- A published-post record as handled by `runner.py`/`utils.py`:
timestamp, filename, title and the affiliate `product_link`. -/
structure PostRecord where
  timestamp : Nat
  filename : String
  title : String
  product_link : String
deriving DecidableEq, Repr

/-- Events emitted by the history-mutating code paths, in program order:
a `deploy_to_ftp` call with its outcome, an append of a record to the
in-memory history, a delete call (`delete_from_ftp`/`delete_from_disk`)
with its outcome, the removal of a filename's record from the working
history, and a `save_post_history` write. -/
inductive Ev where
  | deployEv (filename : String) (ok : Bool)
  | appendEv (r : PostRecord)
  | evictEv (filename : String) (ok : Bool)
  | removeEv (filename : String)
  | saveEv
deriving DecidableEq, Repr

/-- `[p for p in post_history if p.get('product_link') == product_link]`
(runner.py:94): the records of one product, by affiliate link. -/
def productGroup (link : String) (hist : List PostRecord) : List PostRecord :=
  hist.filter (fun p => p.product_link == link)

/-- `product_posts.sort(key=lambda x: x['timestamp'])` (runner.py:98),
Python's stable ascending sort by timestamp. -/
def sortByTs (l : List PostRecord) : List PostRecord :=
  l.mergeSort (fun a b => decide (a.timestamp ≤ b.timestamp))

/-- The eviction loop of runner.py:106-116: for each candidate, call
`delete_from_ftp` (the `evict` argument); on success filter every record
with that filename out of the working history and continue; on failure
stop immediately (`break`).  Returns the updated history together with
the trace of delete calls and history removals. -/
def evictLoop (evict : String → Bool) (hist : List PostRecord) :
    List PostRecord → List PostRecord × List Ev
  | [] => (hist, [])
  | d :: rest =>
    if evict d.filename then
      let r := evictLoop evict (hist.filter (fun p => !(p.filename == d.filename))) rest
      (r.1, Ev.evictEv d.filename true :: Ev.removeEv d.filename :: r.2)
    else (hist, [Ev.evictEv d.filename false])

/-- One iteration of the rotation loop of runner.py:90-116 for a single
portfolio entry `link`: collect this product's posts, and if they exceed
the cap, sort ascending by timestamp and evict the oldest
`size - cap` ones. -/
def rotateProduct (evict : String → Bool) (cap : Nat)
    (hist : List PostRecord) (link : String) : List PostRecord × List Ev :=
  let productPosts := productGroup link hist
  if cap < productPosts.length then
    evictLoop evict hist ((sortByTs productPosts).take (productPosts.length - cap))
  else (hist, [])

/-- The full rotation step of runner.py:90-116: iterate `rotateProduct`
over every portfolio entry's link, threading the working history. -/
def rotationStep (evict : String → Bool) (cap : Nat) :
    List String → List PostRecord → List PostRecord × List Ev
  | [], hist => (hist, [])
  | l :: rest, hist =>
    let r1 := rotateProduct evict cap hist l
    let r2 := rotationStep evict cap rest r1.1
    (r2.1, r1.2 ++ r2.2)

/-- The history-affecting slice of `main_loop` (runner.py:60-119): deploy
the new article; on failure stop the cycle; on success append the new
record to the freshly loaded history, run rotation with the hard-coded
cap `MAX_POSTS_PER_PRODUCT = 2`, and save.  Returns the history that is
saved together with the event trace. -/
def mainLoopHist (deployOk : Bool) (evict : String → Bool)
    (portfolio : List String) (hist : List PostRecord) (newRec : PostRecord) :
    List PostRecord × List Ev :=
  if deployOk then
    let r := rotationStep evict 2 portfolio (hist ++ [newRec])
    (r.1, Ev.deployEv newRec.filename true :: Ev.appendEv newRec :: (r.2 ++ [Ev.saveEv]))
  else (hist, [Ev.deployEv newRec.filename false])

/-- The eviction candidates the rotation selects for one product group
(runner.py:96-102): empty if the group is within the cap, otherwise the
oldest `size - cap` records of the group in ascending timestamp order. -/
def evictionCandidates (cap : Nat) (g : List PostRecord) : List PostRecord :=
  if cap < g.length then (sortByTs g).take (g.length - cap) else []

/-- Specification-side characterisation of what rotation does to one
product group: the group is unchanged if within the cap; otherwise the
records whose filename matches a successfully evicted candidate (the
longest prefix of the candidate list on which `evict` succeeds) are
removed. -/
def groupRotate (evict : String → Bool) (cap : Nat)
    (g : List PostRecord) : List PostRecord :=
  if cap < g.length then
    g.filter (fun p =>
      ((evictionCandidates cap g).takeWhile (fun d => evict d.filename)).all
        (fun d => !(p.filename == d.filename)))
  else g

/-- The throttling gate `is_time_to_post` (runner.py:166-190), with the
history already loaded and times in minutes: refuse while the minimum
delay since the last record has not elapsed, then refuse when the count
of records from the trailing 24 hours (1440 minutes) has reached the
cap. -/
def is_time_to_post (now minDelay : Nat) (maxPosts : Nat)
    (history : List PostRecord) : Bool :=
  match history.getLast? with
  | some lastPost =>
    if now < lastPost.timestamp + minDelay then false
    else if maxPosts ≤ (history.filter (fun r => now - r.timestamp < 1440)).length then false
    else true
  | none =>
    if maxPosts ≤ (history.filter (fun r => now - r.timestamp < 1440)).length then false
    else true

/-- The history update of `manager.delete_post` (manager.py:27-57): if the
disk deletion fails the history is untouched, otherwise every record with
the given filename is dropped and the file rewritten. -/
def delete_post (diskOk : Bool) (hist : List PostRecord) (f : String) :
    List PostRecord :=
  if diskOk then hist.filter (fun p => !(p.filename == f)) else hist

/-- Event trace of `manager.delete_post`: the disk delete call, then on
success the history removal and rewrite. -/
def deletePostEv (diskOk : Bool) (f : String) : List Ev :=
  Ev.evictEv f diskOk :: (if diskOk then [Ev.removeEv f, Ev.saveEv] else [])

/-- The deletion loop of `manager.delete_all_posts` (manager.py:116-121):
delete files in order, recording every attempted filename, and stop at
the first failure (`break`), reporting whether all succeeded. -/
def deleteLoop (delOk : String → Bool) : List String → List String × Bool
  | [] => ([], true)
  | f :: rest =>
    if delOk f then
      let r := deleteLoop delOk rest
      (f :: r.1, r.2)
    else ([f], false)

/-- Result of `delete_all_posts`: the delete calls attempted, the
resulting content of the history file, and whether the empty index was
re-rendered (which the code does exactly when it also clears the
history). -/
structure DeleteAllRes where
  attempted : List String
  history : List PostRecord
  reindexed : Bool
deriving DecidableEq, Repr

/-- `manager.delete_all_posts` (manager.py:75-141): abort if the disk
listing failed; exclude `index.html` and `disclosure.html`; abort if
nothing remains or the user did not confirm; delete with fail-fast;
clear the history and republish an empty index only when every deletion
succeeded. -/
def delete_all_posts (listing : Option (List String)) (confirmed : Bool)
    (delOk : String → Bool) (hist : List PostRecord) : DeleteAllRes :=
  match listing with
  | none => ⟨[], hist, false⟩
  | some files =>
    let ftd := files.filter (fun f => !(f == "index.html") && !(f == "disclosure.html"))
    if ftd = [] then ⟨[], hist, false⟩
    else if !confirmed then ⟨[], hist, false⟩
    else
      let r := deleteLoop delOk ftd
      if r.2 then ⟨r.1, [], true⟩ else ⟨r.1, hist, false⟩

/-- Outcome of the `ftp.delete` call inside `delete_from_ftp`
(site_deployer.py:101-138): success, an `error_perm` whose message does
or does not contain `550`, another `ftplib` error, or an unexpected
exception. -/
inductive DelOutcome where
  | deleted
  | permErr (has550 : Bool)
  | otherFtpErr
  | unexpectedErr
deriving DecidableEq, Repr

/-- `delete_from_ftp` (site_deployer.py:101-138): `False` when an FTP
configuration key is missing; `True` on successful deletion and on an
`error_perm` carrying `550` (file absent); any other `error_perm` is
re-raised and, like other FTP errors and unexpected exceptions, yields
`False`. -/
def delete_from_ftp (cfgOk : Bool) (outcome : DelOutcome) : Bool :=
  if !cfgOk then false
  else
    match outcome with
    | DelOutcome.deleted => true
    | DelOutcome.permErr has550 => if has550 then true else false
    | DelOutcome.otherFtpErr => false
    | DelOutcome.unexpectedErr => false

/-- Python `\s` / `str.strip` whitespace class (modelled by Lean's
`Char.isWhitespace`). -/
def isWsC (c : Char) : Bool := c.isWhitespace

/-- Python `\w` word-character class restricted to ASCII: alphanumeric or
underscore. -/
def isWordC (c : Char) : Bool := c.isAlphanum || c == '_'

/-- `re.sub(r'\s+', '-', text)` (utils.py:105): every maximal whitespace
run becomes a single hyphen. -/
def repSp : List Char → List Char
  | [] => []
  | c :: rest =>
    if isWsC c then '-' :: repSp (rest.dropWhile isWsC)
    else c :: repSp rest
termination_by l => l.length
decreasing_by
  · exact Nat.lt_succ_of_le ((List.dropWhile_sublist _).length_le)
  · exact Nat.lt_succ_self _

/-- `re.sub(r'--+', '-', text)` (utils.py:107): every maximal hyphen run
becomes a single hyphen (runs of length one are already single). -/
def collHy : List Char → List Char
  | [] => []
  | c :: rest =>
    if c == '-' then '-' :: collHy (rest.dropWhile (fun d => d == '-'))
    else c :: collHy rest
termination_by l => l.length
decreasing_by
  · exact Nat.lt_succ_of_le ((List.dropWhile_sublist _).length_le)
  · exact Nat.lt_succ_self _

/-- Drop the trailing elements satisfying `p`. -/
def dropTrail (p : Char → Bool) (l : List Char) : List Char :=
  (l.reverse.dropWhile p).reverse

/-- `text.strip('-')` (utils.py:109). -/
def stripHy (l : List Char) : List Char :=
  dropTrail (fun d => d == '-') (l.dropWhile (fun d => d == '-'))

/-- `str.strip()` with no argument: drop leading and trailing
whitespace. -/
def stripWs (l : List Char) : List Char :=
  dropTrail isWsC (l.dropWhile isWsC)

/-- `sanitize_filename` (utils.py:96-111): drop characters that are not
word characters, whitespace or hyphens; collapse whitespace runs to a
hyphen; collapse hyphen runs; strip outer hyphens; lowercase and truncate
to 50 characters. -/
def sanitize_filename (text : List Char) : List Char :=
  let t1 := text.filter (fun c => isWordC c || isWsC c || c == '-')
  let t2 := repSp t1
  let t3 := collHy t2
  let t4 := stripHy t3
  (t4.map Char.toLower).take 50

/-- Decimal rendering of a positive number, most significant digit
first. -/
def natToDecAux (n : Nat) : List Char :=
  if n = 0 then []
  else natToDecAux (n / 10) ++ [Nat.digitChar (n % 10)]
decreasing_by exact Nat.div_lt_self (Nat.pos_of_ne_zero (by assumption)) (by decide)

/-- Injective decimal rendering of a timestamp; stands in for
`datetime.isoformat` (utils.py:71). -/
def natToDec (n : Nat) : List Char :=
  if n = 0 then ['0'] else natToDecAux n

/-- Left-to-right decimal accumulator. -/
def parseDecAux : Nat → List Char → Option Nat
  | acc, [] => some acc
  | acc, c :: cs =>
    if c.isDigit then parseDecAux (acc * 10 + (c.toNat - '0'.toNat)) cs
    else none

/-- Decimal parsing of a timestamp string; stands in for
`datetime.fromisoformat` (utils.py:31,34), failing (`ValueError`) on
anything that is not a plain numeral. -/
def parseDec (l : List Char) : Option Nat :=
  if l = [] then none else parseDecAux 0 l

/-- Consume an expected literal from the front of the input, failing if
it is not there. -/
def dropPre : List Char → List Char → Option (List Char)
  | [], l => some l
  | _ :: _, [] => none
  | p :: ps, c :: cs => if c = p then dropPre ps cs else none

/-- Read a string up to (and consuming) the next double quote. -/
def readStr : List Char → Option (List Char × List Char)
  | [] => none
  | c :: rest =>
    if c = '"' then some ([], rest)
    else (readStr rest).map (fun r => (c :: r.1, r.2))

/-- One serialised history record as written by `save_post_history`
(utils.py:56-74): `json.dumps` of the four fields with the timestamp
in ISO form. -/
def dump_record (r : PostRecord) : List Char :=
  "\x7b\"timestamp\": \"".toList ++ natToDec r.timestamp
    ++ "\", \"filename\": \"".toList ++ r.filename.toList
    ++ "\", \"title\": \"".toList ++ r.title.toList
    ++ "\", \"product_link\": \"".toList ++ r.product_link.toList
    ++ "\"\x7d".toList

/-- `save_post_history` (utils.py:56-74): overwrite the file with one
serialised record per line. -/
def save_post_history (records : List PostRecord) : List (List Char) :=
  records.map dump_record

/-- `json.loads` of a history line followed by
`datetime.fromisoformat(record['timestamp'])` (utils.py:33-34),
restricted to the object layout `save_post_history` emits; `none` models
the `JSONDecodeError`/`KeyError`/`ValueError` paths. -/
def parseJsonLine (line : List Char) : Option PostRecord :=
  (dropPre "\x7b\"timestamp\": \"".toList line).bind fun r1 =>
  (readStr r1).bind fun ts1 =>
  (parseDec ts1.1).bind fun ts =>
  (dropPre ", \"filename\": \"".toList ts1.2).bind fun r3 =>
  (readStr r3).bind fun fn1 =>
  (dropPre ", \"title\": \"".toList fn1.2).bind fun r5 =>
  (readStr r5).bind fun tt1 =>
  (dropPre ", \"product_link\": \"".toList tt1.2).bind fun r7 =>
  (readStr r7).bind fun pl1 =>
  if pl1.2 = ['\x7d'] then
    some ⟨ts, String.mk fn1.1, String.mk tt1.1, String.mk pl1.1⟩
  else none

/-- Parsing of a single non-blank history line (utils.py:28-37): lines
without a brace are legacy timestamp-only records (absent fields read
back as empty), lines with a brace are JSON records; `none` models the
caught exceptions, after which the line is skipped with a warning. -/
def parse_history_line (line : List Char) : Option PostRecord :=
  if '\x7b' ∈ line then parseJsonLine line
  else (parseDec (stripWs line)).map (fun ts => ⟨ts, "", "", ""⟩)

/-- `get_post_history` (utils.py:19-41) on the list of lines of the
history file: blank lines are ignored, malformed lines are skipped, the
remaining records are returned in file order. -/
def get_post_history (lines : List (List Char)) : List PostRecord :=
  match lines with
  | [] => []
  | line :: rest =>
    if stripWs line = [] then get_post_history rest
    else
      match parse_history_line line with
      | some r => r :: get_post_history rest
      | none => get_post_history rest

/-- First index at which `pat` occurs as a contiguous sublist of `l`;
models Python `re.search`'s leftmost-match start / `str.find`. -/
def subAt (pat : List Char) : List Char → Option Nat
  | [] => if pat = [] then some 0 else none
  | c :: rest =>
    if pat.isPrefixOf (c :: rest) then some 0
    else (subAt pat rest).map (fun i => i + 1)

/-- `re.search(r'```html(.*?)```', content, re.DOTALL)`
(content_generator.py:155): the text between the leftmost ```` ```html ````
and the first ```` ``` ```` after it, if both are present. -/
def extractFence (l : List Char) : Option (List Char) := do
  let i ← subAt "```html".toList l
  let after := l.drop (i + 7)
  let j ← subAt "```".toList after
  some (after.take j)

/-- The first-tag slice (content_generator.py:161-163): when a `<` occurs
at a positive position, keep the text from that `<` onward; otherwise
leave the text unchanged. -/
def sliceTag (l : List Char) : List Char :=
  match subAt ['<'] l with
  | some p => if 0 < p then l.drop p else l
  | none => l

/-- The response post-processing of `_call_ollama`
(content_generator.py:147-165), given the `response` string of a
successful backend call: strip; return `None` when empty; extract the
```` ```html ```` fenced block when present (stripped); slice from the
first `<` when preceded by other text; return the final strip. -/
def call_ollama_postprocess (resp : List Char) : Option (List Char) :=
  let c0 := stripWs resp
  if c0 = [] then none
  else
    let c1 := match extractFence c0 with
      | some inner => stripWs inner
      | none => c0
    let c2 := sliceTag c1
    some (stripWs c2)

/-- The event trace produced by an all-successful run of the eviction
loop over a candidate list: for each candidate a successful delete call
followed by the removal of its record. -/
def evPairs : List PostRecord → List Ev
  | [] => []
  | d :: rest => Ev.evictEv d.filename true :: Ev.removeEv d.filename :: evPairs rest

/-- Temporal property over an event trace: every removal of a filename
from the history is preceded by a delete call for that filename that
returned success (`ok` accumulates the filenames successfully deleted so
far). -/
def removeGuarded (ok : List String) : List Ev → Prop
  | [] => True
  | Ev.evictEv f true :: rest => removeGuarded (f :: ok) rest
  | Ev.removeEv f :: rest => f ∈ ok ∧ removeGuarded ok rest
  | _ :: rest => removeGuarded ok rest

/-- Temporal property over an event trace: every history append of a
record is preceded by a successful deploy of that record's filename
(`dep` accumulates the filenames successfully deployed so far). -/
def appendGuarded (dep : List String) : List Ev → Prop
  | [] => True
  | Ev.deployEv f true :: rest => appendGuarded (f :: dep) rest
  | Ev.appendEv r :: rest => r.filename ∈ dep ∧ appendGuarded dep rest
  | _ :: rest => appendGuarded dep rest

/-! ### Basic lemmas about the eviction loop and the rotation step -/

theorem evictLoop_fst (e : String → Bool) (ds : List PostRecord) :
    ∀ hist : List PostRecord,
    (evictLoop e hist ds).1
      = hist.filter (fun p =>
          (ds.takeWhile (fun d => e d.filename)).all (fun d => !(p.filename == d.filename))) := by
  induction ds with
  | nil => intro hist; simp [evictLoop]
  | cons d rest ih =>
    intro hist
    by_cases he : e d.filename
    · simp only [evictLoop, he, if_pos, List.takeWhile_cons]
      rw [ih, List.filter_filter]
      refine List.filter_congr fun a _ => ?_
      simp [he, Bool.and_comm]
    · simp [evictLoop, he, List.takeWhile_cons]

theorem evictLoop_fst_sublist (e : String → Bool) (hist ds : List PostRecord) :
    (evictLoop e hist ds).1.Sublist hist := by
  rw [evictLoop_fst]; exact List.filter_sublist hist

theorem evictLoop_snd_sub (e : String → Bool) (ds : List PostRecord) :
    ∀ hist f ok, Ev.evictEv f ok ∈ (evictLoop e hist ds).2 →
      f ∈ ds.map (fun d => d.filename) := by
  induction ds with
  | nil => intro hist f ok h; simp [evictLoop] at h
  | cons d rest ih =>
    intro hist f ok h
    by_cases he : e d.filename
    · simp only [evictLoop, he, if_pos, List.mem_cons] at h
      rcases h with h1 | h2 | h3
      · cases h1; simp
      · cases h2
      · have := ih _ f ok h3; simp [this]
    · simp only [evictLoop, he] at h
      simp at h
      rcases h with ⟨h1, _⟩
      simp [h1]

theorem evictLoop_snd_split (e : String → Bool) (bad : PostRecord)
    (hbad : e bad.filename = false) :
    ∀ (pre post : List PostRecord) (hist : List PostRecord),
    (∀ d ∈ pre, e d.filename = true) →
    (evictLoop e hist (pre ++ bad :: post)).2
      = evPairs pre ++ [Ev.evictEv bad.filename false] := by
  intro pre
  induction pre with
  | nil => intro post hist _; simp [evictLoop, hbad, evPairs]
  | cons d rest ih =>
    intro post hist hpre
    have hd : e d.filename = true := hpre d (by simp)
    simp only [List.cons_append, evictLoop, hd, if_pos, evPairs, List.append_eq]
    rw [ih post _ (fun x hx => hpre x (by simp [hx]))]

theorem evPairs_no_evict (f : String) (ok : Bool) :
    ∀ pre : List PostRecord, Ev.evictEv f ok ∈ evPairs pre →
      f ∈ pre.map (fun d => d.filename) := by
  intro pre
  induction pre with
  | nil => intro h; simp [evPairs] at h
  | cons d rest ih =>
    intro h
    simp only [evPairs, List.mem_cons] at h
    rcases h with h1 | h2 | h3
    · cases h1; simp
    · cases h2
    · have := ih h3; simp [this]

theorem rotateProduct_fst_sublist (e : String → Bool) (cap : Nat)
    (hist : List PostRecord) (link : String) :
    (rotateProduct e cap hist link).1.Sublist hist := by
  unfold rotateProduct
  by_cases h : cap < (productGroup link hist).length
  · simp only [h, if_pos]; exact evictLoop_fst_sublist _ _ _
  · simp only [h, if_neg, not_false_iff]; exact List.Sublist.refl _

theorem rotationStep_fst_sublist (e : String → Bool) (cap : Nat) :
    ∀ (P : List String) (hist : List PostRecord),
    (rotationStep e cap P hist).1.Sublist hist := by
  intro P
  induction P with
  | nil => intro hist; simp [rotationStep]
  | cons l rest ih =>
    intro hist
    exact (ih _).trans (rotateProduct_fst_sublist e cap hist l)

theorem rotationStep_append (e : String → Bool) (cap : Nat) :
    ∀ (A B : List String) (hist : List PostRecord),
    rotationStep e cap (A ++ B) hist
      = ((rotationStep e cap B (rotationStep e cap A hist).1).1,
         (rotationStep e cap A hist).2
           ++ (rotationStep e cap B (rotationStep e cap A hist).1).2) := by
  intro A
  induction A with
  | nil => intro B hist; simp [rotationStep]
  | cons l rest ih =>
    intro B hist
    simp only [List.cons_append, rotationStep, List.append_eq]
    rw [ih]
    simp [List.append_assoc]

theorem mem_of_mem_take_sort (g : List PostRecord) (k : Nat) (d : PostRecord)
    (hd : d ∈ (sortByTs g).take k) : d ∈ g :=
  (List.mergeSort_perm g _).subset ((List.take_sublist k (sortByTs g)).subset hd)

theorem mem_productGroup (link : String) (hist : List PostRecord) (p : PostRecord) :
    p ∈ productGroup link hist ↔ p ∈ hist ∧ p.product_link = link := by
  unfold productGroup
  rw [List.mem_filter]
  simp [beq_iff_eq]

theorem rotateProduct_filter_self (e : String → Bool) (cap : Nat)
    (hist : List PostRecord) (link : String) :
    productGroup link (rotateProduct e cap hist link).1
      = groupRotate e cap (productGroup link hist) := by
  unfold rotateProduct groupRotate evictionCandidates
  by_cases h : cap < (productGroup link hist).length
  · simp only [h, if_pos]
    rw [evictLoop_fst]
    unfold productGroup
    rw [List.filter_filter, List.filter_filter]
    exact List.filter_congr fun a _ => Bool.and_comm _ _
  · simp only [h, if_neg, not_false_iff]

theorem rotateProduct_filter_other (e : String → Bool) (cap : Nat)
    (hist : List PostRecord) (link link' : String)
    (hfn : (hist.map (fun p => p.filename)).Nodup) (hne : link' ≠ link) :
    productGroup link' (rotateProduct e cap hist link).1 = productGroup link' hist := by
  unfold rotateProduct
  by_cases h : cap < (productGroup link hist).length
  · simp only [h, if_pos]
    rw [evictLoop_fst]
    unfold productGroup
    rw [List.filter_filter]
    refine List.filter_congr fun a ha => ?_
    by_cases hpl : (a.product_link == link') = true
    · rw [hpl, Bool.true_and]
      rw [List.all_eq_true]
      intro d hd
      have hdT : d ∈ productGroup link hist :=
        mem_of_mem_take_sort _ _ d ((List.takeWhile_sublist _).subset hd)
      have hdh : d ∈ hist ∧ d.product_link = link := (mem_productGroup _ _ _).mp hdT
      by_cases hfe : (a.filename == d.filename) = true
      · exfalso
        have had : a = d :=
          List.inj_on_of_nodup_map hfn ha hdh.1 (beq_iff_eq.mp hfe)
        apply hne
        rw [← beq_iff_eq.mp hpl, had, hdh.2]
      · simp at hfe
        simp [hfe]
    · simp at hpl
      simp [hpl]
  · simp only [h, if_neg, not_false_iff]

theorem rotationStep_filter_not_mem (e : String → Bool) (cap : Nat) :
    ∀ (P : List String) (hist : List PostRecord) (link : String), link ∉ P →
    (hist.map (fun p => p.filename)).Nodup →
    productGroup link (rotationStep e cap P hist).1 = productGroup link hist := by
  intro P
  induction P with
  | nil => intro hist link _ _; simp [rotationStep]
  | cons l rest ih =>
    intro hist link hnm hfn
    have hne : link ≠ l := fun hh => hnm (by simp [hh])
    have hfn1 : ((rotateProduct e cap hist l).1.map (fun p => p.filename)).Nodup :=
      ((rotateProduct_fst_sublist e cap hist l).map _).nodup hfn
    calc productGroup link (rotationStep e cap (l :: rest) hist).1
        = productGroup link (rotationStep e cap rest (rotateProduct e cap hist l).1).1 := rfl
      _ = productGroup link (rotateProduct e cap hist l).1 :=
          ih _ link (fun hh => hnm (by simp [hh])) hfn1
      _ = productGroup link hist := rotateProduct_filter_other e cap hist l link hfn hne

theorem rotationStep_filter_group (e : String → Bool) (cap : Nat) :
    ∀ (P : List String) (hist : List PostRecord) (link : String), P.Nodup → link ∈ P →
    (hist.map (fun p => p.filename)).Nodup →
    productGroup link (rotationStep e cap P hist).1
      = groupRotate e cap (productGroup link hist) := by
  intro P
  induction P with
  | nil => intro hist link _ hm _; simp at hm
  | cons l rest ih =>
    intro hist link hnd hm hfn
    have hfn1 : ((rotateProduct e cap hist l).1.map (fun p => p.filename)).Nodup :=
      ((rotateProduct_fst_sublist e cap hist l).map _).nodup hfn
    by_cases heq : link = l
    · subst heq
      have hnm : link ∉ rest := (List.nodup_cons.mp hnd).1
      calc productGroup link (rotationStep e cap (link :: rest) hist).1
          = productGroup link (rotationStep e cap rest (rotateProduct e cap hist link).1).1 := rfl
        _ = productGroup link (rotateProduct e cap hist link).1 :=
            rotationStep_filter_not_mem e cap rest _ link hnm hfn1
        _ = groupRotate e cap (productGroup link hist) :=
            rotateProduct_filter_self e cap hist link
    · have hm2 : link ∈ rest := by
        rcases List.mem_cons.mp hm with h | h
        · exact absurd h heq
        · exact h
      calc productGroup link (rotationStep e cap (l :: rest) hist).1
          = productGroup link (rotationStep e cap rest (rotateProduct e cap hist l).1).1 := rfl
        _ = groupRotate e cap (productGroup link (rotateProduct e cap hist l).1) :=
            ih _ link (List.nodup_cons.mp hnd).2 hm2 hfn1
        _ = groupRotate e cap (productGroup link hist) := by
            rw [rotateProduct_filter_other e cap hist l link hfn heq]

theorem rotationStep_id (e : String → Bool) (cap : Nat) :
    ∀ (P : List String) (hist : List PostRecord),
    (∀ l ∈ P, (productGroup l hist).length ≤ cap) →
    (rotationStep e cap P hist).1 = hist := by
  intro P
  induction P with
  | nil => intro hist _; simp [rotationStep]
  | cons l rest ih =>
    intro hist hsmall
    have h1 : ¬ cap < (productGroup l hist).length :=
      Nat.not_lt.mpr (hsmall l (by simp))
    have hr : rotateProduct e cap hist l = (hist, []) := by
      unfold rotateProduct
      simp only [h1, if_neg, not_false_iff]
    calc (rotationStep e cap (l :: rest) hist).1
        = (rotationStep e cap rest (rotateProduct e cap hist l).1).1 := rfl
      _ = hist := by
          rw [hr]
          exact ih hist (fun x hx => hsmall x (by simp [hx]))

theorem rotationStep_snd_sub (e : String → Bool) (cap : Nat) :
    ∀ (P : List String) (hist : List PostRecord) (f : String) (ok : Bool),
    Ev.evictEv f ok ∈ (rotationStep e cap P hist).2 →
    ∃ l ∈ P, ∃ r, r ∈ hist ∧ r.filename = f ∧ r.product_link = l := by
  intro P
  induction P with
  | nil => intro hist f ok h; simp [rotationStep] at h
  | cons l rest ih =>
    intro hist f ok h
    have h2 : Ev.evictEv f ok ∈ (rotateProduct e cap hist l).2
        ∨ Ev.evictEv f ok ∈ (rotationStep e cap rest (rotateProduct e cap hist l).1).2 := by
      simpa [rotationStep] using List.mem_append.mp h
    rcases h2 with h2 | h2
    · unfold rotateProduct at h2
      by_cases hc : cap < (productGroup l hist).length
      · simp only [hc, if_pos] at h2
        have hf := evictLoop_snd_sub e _ hist f ok h2
        rcases List.mem_map.mp hf with ⟨d, hd, hfd⟩
        have hdg : d ∈ productGroup l hist := mem_of_mem_take_sort _ _ d hd
        have := (mem_productGroup _ _ _).mp hdg
        exact ⟨l, by simp, d, this.1, hfd, this.2⟩
      · simp only [hc, if_neg, not_false_iff] at h2
        simp at h2
    · rcases ih _ f ok h2 with ⟨l', hl', r, hr, hrf, hrp⟩
      exact ⟨l', by simp [hl'], r, (rotateProduct_fst_sublist e cap hist l).subset hr, hrf, hrp⟩

/-! ### Analysis of one product group under an all-successful eviction -/

theorem sortByTs_pairwise_lt (g : List PostRecord)
    (hts : (g.map (fun p => p.timestamp)).Nodup) :
    (sortByTs g).Pairwise (fun a b => a.timestamp < b.timestamp) := by
  have hperm : (sortByTs g).Perm g := List.mergeSort_perm g _
  have hple : (sortByTs g).Pairwise (fun a b => a.timestamp ≤ b.timestamp) := by
    have := @List.sorted_mergeSort PostRecord
      (fun a b : PostRecord => decide (a.timestamp ≤ b.timestamp))
      (fun a b c hab hbc => by
        simp only [decide_eq_true_eq] at *
        omega)
      (fun a b => by
        simp only [Bool.or_eq_true, decide_eq_true_eq]
        omega)
      g
    exact this.imp (fun hh => of_decide_eq_true hh)
  have htss : ((sortByTs g).map (fun p => p.timestamp)).Nodup :=
    ((hperm.map (fun p => p.timestamp)).nodup_iff).mpr hts
  have hpne : (sortByTs g).Pairwise (fun a b => a.timestamp ≠ b.timestamp) :=
    List.pairwise_map.mp htss
  exact (hple.and hpne).imp (fun hh => lt_of_le_of_ne hh.1 hh.2)

theorem groupRotate_true (g : List PostRecord) (cap : Nat)
    (hfn : (g.map (fun p => p.filename)).Nodup)
    (hts : (g.map (fun p => p.timestamp)).Nodup) :
    (groupRotate (fun _ => true) cap g).length = min g.length cap
    ∧ (∀ s ∈ groupRotate (fun _ => true) cap g, s ∈ g)
    ∧ (∀ r ∈ g, r ∉ groupRotate (fun _ => true) cap g →
        ∀ s ∈ groupRotate (fun _ => true) cap g, r.timestamp < s.timestamp)
    ∧ (g.length ≤ cap → groupRotate (fun _ => true) cap g = g) := by
  by_cases h : cap < g.length
  case neg =>
    have hle : g.length ≤ cap := Nat.not_lt.mp h
    have hgr : groupRotate (fun _ => true) cap g = g := by
      unfold groupRotate
      simp only [h, if_neg, not_false_iff]
    refine ⟨by rw [hgr]; omega, by rw [hgr]; exact fun s hs => hs, ?_, fun _ => hgr⟩
    intro r hr hnr
    rw [hgr] at hnr
    exact absurd hr hnr
  case pos =>
    set T : List PostRecord := (sortByTs g).take (g.length - cap) with hTdef
    set D : List PostRecord := (sortByTs g).drop (g.length - cap) with hDdef
    have hperm : (sortByTs g).Perm g := List.mergeSort_perm g _
    have hfns : ((sortByTs g).map (fun p => p.filename)).Nodup :=
      ((hperm.map (fun p => p.filename)).nodup_iff).mpr hfn
    have hnds : (sortByTs g).Nodup := hfns.of_map
    have hTD : T ++ D = sortByTs g := List.take_append_drop _ _
    have hndsTD : (T ++ D).Nodup := by rw [hTD]; exact hnds
    have hmemT : ∀ d, d ∈ T → d ∈ g := fun d hd =>
      hperm.subset ((List.take_sublist _ _).subset hd)
    have hgr : groupRotate (fun _ => true) cap g
        = g.filter (fun p => T.all (fun d => !(p.filename == d.filename))) := by
      unfold groupRotate evictionCandidates
      simp only [h, if_pos]
      refine List.filter_congr fun a _ => ?_
      congr 1
      simp
    -- the filter predicate holds exactly off the candidate list
    have hpred : ∀ p ∈ g,
        ((T.all (fun d => !(p.filename == d.filename))) = true ↔ p ∉ T) := by
      intro p hp
      constructor
      · intro hall hmemTp
        have := List.all_eq_true.mp hall p hmemTp
        simp at this
      · intro hnm
        rw [List.all_eq_true]
        intro d hd
        by_cases hfe : (p.filename == d.filename) = true
        · exfalso
          have hdg : d ∈ g := hmemT d hd
          have : p = d := List.inj_on_of_nodup_map hfn hp hdg (beq_iff_eq.mp hfe)
          exact hnm (this ▸ hd)
        · simp at hfe
          simp [hfe]
    have hpermD : (groupRotate (fun _ => true) cap g).Perm D := by
      rw [hgr]
      have h1 : (g.filter (fun p => T.all (fun d => !(p.filename == d.filename)))).Perm
          ((sortByTs g).filter (fun p => T.all (fun d => !(p.filename == d.filename)))) :=
        (hperm.filter _).symm
      refine h1.trans ?_
      have h4 : (sortByTs g).filter (fun p => T.all (fun d => !(p.filename == d.filename)))
          = (T ++ D).filter (fun p => T.all (fun d => !(p.filename == d.filename))) := by
        rw [hTD]
      rw [h4, List.filter_append]
      have h2 : T.filter (fun p => T.all (fun d => !(p.filename == d.filename))) = [] := by
        rw [List.filter_eq_nil_iff]
        intro a ha hall
        have := List.all_eq_true.mp hall a ha
        simp at this
      have h3 : D.filter (fun p => T.all (fun d => !(p.filename == d.filename))) = D := by
        rw [List.filter_eq_self]
        intro a ha
        have hag : a ∈ g := hperm.subset ((List.drop_suffix _ _).sublist.subset ha)
        have hanT : a ∉ T := fun haT =>
          (List.disjoint_of_nodup_append hndsTD) haT ha
        exact (hpred a hag).mpr hanT
      rw [h2, h3, List.nil_append]
    have hlen : (groupRotate (fun _ => true) cap g).length = min g.length cap := by
      rw [hpermD.length_eq, hDdef, List.length_drop, hperm.length_eq]
      omega
    refine ⟨hlen, ?_, ?_, ?_⟩
    · intro s hs
      rw [hgr] at hs
      exact (List.mem_filter.mp hs).1
    · intro r hr hnr s hs
      have hrT : r ∈ T := by
        by_contra hno
        apply hnr
        rw [hgr, List.mem_filter]
        exact ⟨hr, (hpred r hr).mpr hno⟩
      have hsD : s ∈ D := hpermD.mem_iff.mp hs
      have hplt := sortByTs_pairwise_lt g hts
      have hpltTD : (T ++ D).Pairwise (fun a b => a.timestamp < b.timestamp) := by
        rw [hTD]; exact hplt
      exact (List.pairwise_append.mp hpltTD).2.2 r hrT s hsD
    · intro hle
      omega

/-- Claim C1: with all evict calls succeeding, one rotation step with cap
`max_per_product` leaves, for each portfolio product, exactly
`min n cap` of its `n` records — the newest ones — removing the
`n - cap` oldest by timestamp; a product with at most `cap` records keeps
its group unchanged, and a history in which every portfolio product is
within the cap is returned unchanged.  (Preconditions: the portfolio
links are distinct and the history's filenames and timestamps are
distinct, the documented well-formedness of the store.) -/
theorem rotation_evicts_oldest
    (h : List PostRecord) (portfolio : List String) (link : String) (cap : Nat)
    (hmem : link ∈ portfolio) (hP : portfolio.Nodup)
    (hfn : (h.map (fun p => p.filename)).Nodup)
    (hts : (h.map (fun p => p.timestamp)).Nodup) :
    ((productGroup link (rotationStep (fun _ => true) cap portfolio h).1).length
        = min (productGroup link h).length cap)
    ∧ (∀ s ∈ productGroup link (rotationStep (fun _ => true) cap portfolio h).1,
        s ∈ productGroup link h)
    ∧ (∀ r ∈ productGroup link h,
        r ∉ productGroup link (rotationStep (fun _ => true) cap portfolio h).1 →
        ∀ s ∈ productGroup link (rotationStep (fun _ => true) cap portfolio h).1,
        r.timestamp < s.timestamp)
    ∧ ((productGroup link h).length ≤ cap →
        productGroup link (rotationStep (fun _ => true) cap portfolio h).1 = productGroup link h)
    ∧ ((∀ l ∈ portfolio, (productGroup l h).length ≤ cap) →
        (rotationStep (fun _ => true) cap portfolio h).1 = h) := by
  have hloc := rotationStep_filter_group (fun _ => true) cap portfolio h link hP hmem hfn
  have hgfn : ((productGroup link h).map (fun p => p.filename)).Nodup :=
    ((List.filter_sublist h).map _).nodup hfn
  have hgts : ((productGroup link h).map (fun p => p.timestamp)).Nodup :=
    ((List.filter_sublist h).map _).nodup hts
  have hg := groupRotate_true (productGroup link h) cap hgfn hgts
  rw [hloc]
  exact ⟨hg.1, hg.2.1, hg.2.2.1, hg.2.2.2,
    fun hall => rotationStep_id (fun _ => true) cap portfolio h hall⟩

/-- Witness for C1: a three-post product with cap 2 keeps its two newest
posts and drops the oldest. -/
theorem rotation_evicts_oldest_witness :
    (("L" : String) ∈ ["L", "M"] ∧ (["L", "M"] : List String).Nodup
      ∧ (([⟨3, "c", "t", "L"⟩, ⟨1, "a", "t", "L"⟩, ⟨2, "b", "t", "L"⟩]
          : List PostRecord).map (fun p => p.filename)).Nodup
      ∧ (([⟨3, "c", "t", "L"⟩, ⟨1, "a", "t", "L"⟩, ⟨2, "b", "t", "L"⟩]
          : List PostRecord).map (fun p => p.timestamp)).Nodup)
    ∧ (((productGroup "L" (rotationStep (fun _ => true) 2 ["L", "M"]
          [⟨3, "c", "t", "L"⟩, ⟨1, "a", "t", "L"⟩, ⟨2, "b", "t", "L"⟩]).1).length
        = min (productGroup "L"
            [⟨3, "c", "t", "L"⟩, ⟨1, "a", "t", "L"⟩, ⟨2, "b", "t", "L"⟩]).length 2)
      ∧ (∀ s ∈ productGroup "L" (rotationStep (fun _ => true) 2 ["L", "M"]
            [⟨3, "c", "t", "L"⟩, ⟨1, "a", "t", "L"⟩, ⟨2, "b", "t", "L"⟩]).1,
          s ∈ productGroup "L" [⟨3, "c", "t", "L"⟩, ⟨1, "a", "t", "L"⟩, ⟨2, "b", "t", "L"⟩])
      ∧ (∀ r ∈ productGroup "L" [⟨3, "c", "t", "L"⟩, ⟨1, "a", "t", "L"⟩, ⟨2, "b", "t", "L"⟩],
          r ∉ productGroup "L" (rotationStep (fun _ => true) 2 ["L", "M"]
            [⟨3, "c", "t", "L"⟩, ⟨1, "a", "t", "L"⟩, ⟨2, "b", "t", "L"⟩]).1 →
          ∀ s ∈ productGroup "L" (rotationStep (fun _ => true) 2 ["L", "M"]
            [⟨3, "c", "t", "L"⟩, ⟨1, "a", "t", "L"⟩, ⟨2, "b", "t", "L"⟩]).1,
          r.timestamp < s.timestamp)
      ∧ ((productGroup "L" [⟨3, "c", "t", "L"⟩, ⟨1, "a", "t", "L"⟩, ⟨2, "b", "t", "L"⟩]).length ≤ 2 →
          productGroup "L" (rotationStep (fun _ => true) 2 ["L", "M"]
            [⟨3, "c", "t", "L"⟩, ⟨1, "a", "t", "L"⟩, ⟨2, "b", "t", "L"⟩]).1
          = productGroup "L" [⟨3, "c", "t", "L"⟩, ⟨1, "a", "t", "L"⟩, ⟨2, "b", "t", "L"⟩])
      ∧ ((∀ l ∈ ["L", "M"],
            (productGroup l [⟨3, "c", "t", "L"⟩, ⟨1, "a", "t", "L"⟩, ⟨2, "b", "t", "L"⟩]).length ≤ 2) →
          (rotationStep (fun _ => true) 2 ["L", "M"]
            [⟨3, "c", "t", "L"⟩, ⟨1, "a", "t", "L"⟩, ⟨2, "b", "t", "L"⟩]).1
          = [⟨3, "c", "t", "L"⟩, ⟨1, "a", "t", "L"⟩, ⟨2, "b", "t", "L"⟩])) :=
  ⟨⟨by decide, by decide, by decide, by decide⟩,
    rotation_evicts_oldest _ _ _ _ (by decide) (by decide) (by decide) (by decide)⟩

/-! ### Partial eviction failure (claim C2) -/

theorem takeWhile_split {α : Type} (p : α → Bool) (bad : α) (hbad : p bad = false) :
    ∀ (pre post : List α), (∀ d ∈ pre, p d = true) →
    List.takeWhile p (pre ++ bad :: post) = pre := by
  intro pre
  induction pre with
  | nil => intro post _; simp [List.takeWhile_cons, hbad]
  | cons d rest ih =>
    intro post hpre
    have hd : p d = true := hpre d (by simp)
    simp only [List.cons_append, List.takeWhile_cons, hd, if_pos]
    rw [ih post (fun x hx => hpre x (by simp [hx]))]

theorem mem_candidates_sub (cap : Nat) (g : List PostRecord) (d : PostRecord)
    (hd : d ∈ evictionCandidates cap g) : d ∈ g := by
  unfold evictionCandidates at hd
  by_cases hc : cap < g.length
  · simp only [hc, if_pos] at hd
    exact mem_of_mem_take_sort g _ d hd
  · simp [hc] at hd

theorem candidates_map_nodup (cap : Nat) (g : List PostRecord)
    (hfn : (g.map (fun p => p.filename)).Nodup) :
    ((evictionCandidates cap g).map (fun p => p.filename)).Nodup := by
  have hperm : (sortByTs g).Perm g := List.mergeSort_perm g _
  have hfns : ((sortByTs g).map (fun p => p.filename)).Nodup :=
    ((hperm.map (fun p => p.filename)).nodup_iff).mpr hfn
  unfold evictionCandidates
  by_cases hc : cap < g.length
  · simp only [hc, if_pos]
    exact ((List.take_sublist _ _).map _).nodup hfns
  · simp [hc]

/-- Claim C2: if an evict call fails on a rotation candidate, that record
stays in the returned history, the younger candidates of the same product
stay as well and are never attempted (no delete call is made for their
filenames anywhere in the rotation run), and every portfolio product's
group is still processed independently, exactly as
`groupRotate` describes.  (Preconditions: distinct portfolio links and
distinct history filenames.) -/
theorem rotation_partial_failure
    (h : List PostRecord) (portfolio : List String) (link : String) (cap : Nat)
    (evict : String → Bool) (pre post : List PostRecord) (bad : PostRecord)
    (hmem : link ∈ portfolio) (hP : portfolio.Nodup)
    (hfn : (h.map (fun p => p.filename)).Nodup)
    (hdec : evictionCandidates cap (productGroup link h) = pre ++ bad :: post)
    (hpre : ∀ d ∈ pre, evict d.filename = true)
    (hbad : evict bad.filename = false) :
    bad ∈ (rotationStep evict cap portfolio h).1
    ∧ (∀ d ∈ post, d ∈ (rotationStep evict cap portfolio h).1)
    ∧ (∀ d ∈ post, ∀ ok, Ev.evictEv d.filename ok ∉ (rotationStep evict cap portfolio h).2)
    ∧ (∀ l ∈ portfolio, productGroup l (rotationStep evict cap portfolio h).1
        = groupRotate evict cap (productGroup l h)) := by
  have hloc : ∀ l ∈ portfolio, productGroup l (rotationStep evict cap portfolio h).1
      = groupRotate evict cap (productGroup l h) := fun l hl =>
    rotationStep_filter_group evict cap portfolio h l hP hl hfn
  have hgfn : ((productGroup link h).map (fun p => p.filename)).Nodup :=
    ((List.filter_sublist h).map _).nodup hfn
  have hcap : cap < (productGroup link h).length := by
    by_contra hc
    unfold evictionCandidates at hdec
    simp only [hc, if_neg, not_false_iff] at hdec
    exact List.cons_ne_nil bad post (List.append_eq_nil.mp hdec.symm).2
  have hTfn : ((pre ++ bad :: post).map (fun p => p.filename)).Nodup := by
    rw [← hdec]
    exact candidates_map_nodup cap _ hgfn
  have hbadpre : ∀ d ∈ pre, ¬ (bad.filename == d.filename) = true := by
    intro d hd hfe
    rw [List.map_append, List.map_cons] at hTfn
    have hdisj := List.disjoint_of_nodup_append hTfn
    exact hdisj (List.mem_map.mpr ⟨d, hd, (beq_iff_eq.mp hfe).symm⟩) (by simp)
  have hpostfn : ∀ d ∈ post, d.filename ∉ (pre.map (fun p => p.filename))
      ∧ d.filename ≠ bad.filename := by
    intro d hd
    rw [List.map_append, List.map_cons] at hTfn
    have hdisj := List.disjoint_of_nodup_append hTfn
    constructor
    · intro hmm
      exact hdisj hmm (by simp [List.mem_map.mpr ⟨d, hd, rfl⟩])
    · intro heq
      have hnd2 := hTfn.of_append_right
      rw [List.nodup_cons] at hnd2
      exact hnd2.1 (heq ▸ List.mem_map.mpr ⟨d, hd, rfl⟩)
  have hdone : (pre ++ bad :: post).takeWhile (fun d => evict d.filename) = pre :=
    takeWhile_split _ bad hbad pre post hpre
  have hmemgr : ∀ d, d ∈ (pre ++ bad :: post) →
      (∀ q ∈ pre, ¬ (d.filename == q.filename) = true) →
      d ∈ groupRotate evict cap (productGroup link h) := by
    intro d hd hq
    have hdg : d ∈ productGroup link h := mem_candidates_sub cap _ d (hdec ▸ hd)
    unfold groupRotate
    simp only [hcap, if_pos]
    rw [List.mem_filter]
    refine ⟨hdg, ?_⟩
    rw [hdec, hdone, List.all_eq_true]
    intro q hqm
    simpa using hq q hqm
  have hbadin : bad ∈ groupRotate evict cap (productGroup link h) :=
    hmemgr bad (by simp) hbadpre
  have hpostin : ∀ d ∈ post, d ∈ groupRotate evict cap (productGroup link h) := by
    intro d hd
    refine hmemgr d (by simp [hd]) ?_
    intro q hq hfe
    exact (hpostfn d hd).1 (List.mem_map.mpr ⟨q, hq, (beq_iff_eq.mp hfe).symm⟩)
  refine ⟨?_, ?_, ?_, hloc⟩
  · have := hloc link hmem
    have hb : bad ∈ productGroup link (rotationStep evict cap portfolio h).1 := by
      rw [this]; exact hbadin
    exact (List.mem_filter.mp hb).1
  · intro d hd
    have := hloc link hmem
    have hb : d ∈ productGroup link (rotationStep evict cap portfolio h).1 := by
      rw [this]; exact hpostin d hd
    exact (List.mem_filter.mp hb).1
  · -- the trace: split the portfolio around `link`
    intro d hd ok hinmem
    obtain ⟨A, B, hsplit⟩ := List.append_of_mem hmem
    have hP' : (A ++ link :: B).Nodup := hsplit ▸ hP
    have hlinkA : link ∉ A := fun hA =>
      (List.disjoint_of_nodup_append hP') hA (by simp)
    have hlinkB : link ∉ B := by
      have := hP'.of_append_right
      exact (List.nodup_cons.mp this).1
    have hdg : d ∈ productGroup link h :=
      mem_candidates_sub cap _ d (hdec ▸ (by simp [hd]))
    have hdh : d ∈ h ∧ d.product_link = link := (mem_productGroup _ _ _).mp hdg
    rw [hsplit, rotationStep_append] at hinmem
    rcases List.mem_append.mp hinmem with hx | hx
    · -- inside the products before `link`
      rcases rotationStep_snd_sub evict cap A h d.filename ok hx with ⟨l, hlA, r, hrh, hrf, hrp⟩
      have : r = d := List.inj_on_of_nodup_map hfn hrh hdh.1 hrf
      rw [this] at hrp
      rw [hdh.2] at hrp
      exact hlinkA (hrp ▸ hlA)
    · -- at `link` itself or after it
      have hA1fn : ((rotationStep evict cap A h).1.map (fun p => p.filename)).Nodup :=
        ((rotationStep_fst_sublist evict cap A h).map _).nodup hfn
      have hA1grp : productGroup link (rotationStep evict cap A h).1 = productGroup link h :=
        rotationStep_filter_not_mem evict cap A h link hlinkA hfn
      have hLdef : rotationStep evict cap (link :: B) (rotationStep evict cap A h).1
          = ((rotationStep evict cap B
                (rotateProduct evict cap (rotationStep evict cap A h).1 link).1).1,
             (rotateProduct evict cap (rotationStep evict cap A h).1 link).2
               ++ (rotationStep evict cap B
                (rotateProduct evict cap (rotationStep evict cap A h).1 link).1).2) := rfl
      rw [hLdef] at hx
      rcases List.mem_append.mp hx with hy | hy
      · -- the failing product's own trace
        have hcnd : (sortByTs (productGroup link (rotationStep evict cap A h).1)).take
            ((productGroup link (rotationStep evict cap A h).1).length - cap)
            = pre ++ bad :: post := by
          rw [hA1grp, ← hdec]
          unfold evictionCandidates
          simp only [hcap, if_pos]
        unfold rotateProduct at hy
        rw [hA1grp] at hy
        simp only [hcap, if_pos] at hy
        rw [hA1grp] at hcnd
        rw [hcnd] at hy
        rw [evictLoop_snd_split evict bad hbad pre post _ hpre] at hy
        rcases List.mem_append.mp hy with hz | hz
        · exact (hpostfn d hd).1 (evPairs_no_evict d.filename ok pre hz)
        · simp at hz
          exact (hpostfn d hd).2 hz.1
      · -- the products after `link`
        rcases rotationStep_snd_sub evict cap B _ d.filename ok hy with ⟨l, hlB, r, hrh, hrf, hrp⟩
        have hrh2 : r ∈ h :=
          (rotationStep_fst_sublist evict cap A h).subset
            ((rotateProduct_fst_sublist evict cap _ link).subset hrh)
        have : r = d := List.inj_on_of_nodup_map hfn hrh2 hdh.1 hrf
        rw [this, hdh.2] at hrp
        exact hlinkB (hrp ▸ hlB)

/-- Witness for C2: with cap 1 and three posts for product "L", the evict
call fails on the oldest candidate "a"; "a" stays in history and the
younger candidate "b" is never attempted. -/
theorem rotation_partial_failure_witness :
    ((("L" : String) ∈ ["L"] ∧ (["L"] : List String).Nodup
      ∧ (([⟨1, "a", "t", "L"⟩, ⟨2, "b", "t", "L"⟩, ⟨3, "c", "t", "L"⟩]
          : List PostRecord).map (fun p => p.filename)).Nodup
      ∧ evictionCandidates 1 (productGroup "L"
          [⟨1, "a", "t", "L"⟩, ⟨2, "b", "t", "L"⟩, ⟨3, "c", "t", "L"⟩])
          = [] ++ (⟨1, "a", "t", "L"⟩ : PostRecord) :: [⟨2, "b", "t", "L"⟩]
      ∧ (∀ d ∈ ([] : List PostRecord), (fun f => !(f == "a")) d.filename = true)
      ∧ (fun f => !(f == "a")) (PostRecord.filename ⟨1, "a", "t", "L"⟩) = false))
    ∧ ((⟨1, "a", "t", "L"⟩ : PostRecord) ∈ (rotationStep (fun f => !(f == "a")) 1 ["L"]
          [⟨1, "a", "t", "L"⟩, ⟨2, "b", "t", "L"⟩, ⟨3, "c", "t", "L"⟩]).1
      ∧ (∀ d ∈ [(⟨2, "b", "t", "L"⟩ : PostRecord)],
          d ∈ (rotationStep (fun f => !(f == "a")) 1 ["L"]
            [⟨1, "a", "t", "L"⟩, ⟨2, "b", "t", "L"⟩, ⟨3, "c", "t", "L"⟩]).1)
      ∧ (∀ d ∈ [(⟨2, "b", "t", "L"⟩ : PostRecord)], ∀ ok,
          Ev.evictEv d.filename ok ∉ (rotationStep (fun f => !(f == "a")) 1 ["L"]
            [⟨1, "a", "t", "L"⟩, ⟨2, "b", "t", "L"⟩, ⟨3, "c", "t", "L"⟩]).2)
      ∧ (∀ l ∈ ["L"],
          productGroup l (rotationStep (fun f => !(f == "a")) 1 ["L"]
            [⟨1, "a", "t", "L"⟩, ⟨2, "b", "t", "L"⟩, ⟨3, "c", "t", "L"⟩]).1
          = groupRotate (fun f => !(f == "a")) 1 (productGroup l
            [⟨1, "a", "t", "L"⟩, ⟨2, "b", "t", "L"⟩, ⟨3, "c", "t", "L"⟩]))) :=
  ⟨⟨by decide, by decide, by decide,
      by simp [evictionCandidates, productGroup, sortByTs, List.mergeSort],
      by decide, by decide⟩,
    rotation_partial_failure
      [⟨1, "a", "t", "L"⟩, ⟨2, "b", "t", "L"⟩, ⟨3, "c", "t", "L"⟩]
      ["L"] "L" 1 (fun f => !(f == "a")) [] [⟨2, "b", "t", "L"⟩] ⟨1, "a", "t", "L"⟩
      (by decide) (by decide) (by decide)
      (by simp [evictionCandidates, productGroup, sortByTs, List.mergeSort])
      (by decide) (by decide)⟩

/-! ### Filename uniqueness (claim C3) -/

theorem delete_all_posts_history_cases (listing : Option (List String))
    (confirmed : Bool) (delOk : String → Bool) (hist : List PostRecord) :
    (delete_all_posts listing confirmed delOk hist).history = hist
    ∨ (delete_all_posts listing confirmed delOk hist).history = [] := by
  unfold delete_all_posts
  match listing with
  | none => exact Or.inl (by simp)
  | some files =>
    by_cases h1 : files.filter (fun f => !(f == "index.html") && !(f == "disclosure.html")) = []
    · simp only [h1, if_pos]
      exact Or.inl (by simp)
    · simp only [h1, if_neg, not_false_iff]
      by_cases h2 : confirmed
      · simp only [h2, Bool.not_true]
        by_cases h3 : (deleteLoop delOk
            (files.filter (fun f => !(f == "index.html") && !(f == "disclosure.html")))).2
        · simp only [h3, if_pos]
          exact Or.inr (by simp)
        · simp only [h3, Bool.false_eq_true, if_neg, not_false_iff, if_false]
          exact Or.inl (by simp)
      · simp only [h2, Bool.not_false, if_pos, if_true]
        exact Or.inl (by simp)

/-- Counterexample to claim C3 as stated: a publish cycle appends its new
record without checking the filename against the existing history, so a
second article whose sanitized title collides with an earlier one leaves
two records with the same filename — even though the starting history had
distinct filenames and every call succeeded. -/
theorem filename_uniqueness_violated :
    (([⟨0, "a.html", "t", "L"⟩] : List PostRecord).map (fun p => p.filename)).Nodup
    ∧ ¬ (((mainLoopHist true (fun _ => true) ["L"] [⟨0, "a.html", "t", "L"⟩]
        ⟨1, "a.html", "t", "L"⟩).1).map (fun p => p.filename)).Nodup := by
  constructor
  · decide
  · decide

/-- Claim C3 (amended): rotation, single-post deletion and bulk deletion
preserve the distinctness of filenames in the history; the publish
cycle's append preserves it only under the additional assumption that the
new record's filename does not already occur in the history (the code
performs no such check, see the counterexample). -/
theorem filename_uniqueness_preserved
    (evict : String → Bool) (cap : Nat) (portfolio : List String)
    (hist : List PostRecord) (r : PostRecord) (deployOk : Bool)
    (diskOk : Bool) (f : String)
    (listing : Option (List String)) (confirmed : Bool) (delOk : String → Bool)
    (hnd : (hist.map (fun p => p.filename)).Nodup) :
    (r.filename ∉ hist.map (fun p => p.filename) →
      ((mainLoopHist deployOk evict portfolio hist r).1.map (fun p => p.filename)).Nodup)
    ∧ ((rotationStep evict cap portfolio hist).1.map (fun p => p.filename)).Nodup
    ∧ ((delete_post diskOk hist f).map (fun p => p.filename)).Nodup
    ∧ ((delete_all_posts listing confirmed delOk hist).history.map
        (fun p => p.filename)).Nodup := by
  refine ⟨?_, ?_, ?_, ?_⟩
  · intro hfresh
    by_cases hd : deployOk
    · subst hd
      have hbase : ((hist ++ [r]).map (fun p => p.filename)).Nodup := by
        rw [List.map_append]
        refine List.Nodup.append hnd (by simp) ?_
        intro a ha hb
        simp at hb
        exact hfresh (hb ▸ ha)
      unfold mainLoopHist
      simp only [if_pos]
      exact ((rotationStep_fst_sublist evict 2 portfolio (hist ++ [r])).map _).nodup hbase
    · simp only [Bool.not_eq_true] at hd
      subst hd
      unfold mainLoopHist
      simp only [Bool.false_eq_true, if_neg, not_false_iff, if_false]
      exact hnd
  · exact ((rotationStep_fst_sublist evict cap portfolio hist).map _).nodup hnd
  · unfold delete_post
    by_cases hd : diskOk
    · simp only [hd, if_pos]
      exact ((List.filter_sublist hist).map _).nodup hnd
    · simp only [hd, Bool.false_eq_true, if_neg, not_false_iff, if_false]
      exact hnd
  · rcases delete_all_posts_history_cases listing confirmed delOk hist with hcase | hcase
    · rw [hcase]; exact hnd
    · rw [hcase]; simp

/-- Witness for C3 (amended): a fresh filename keeps the history
duplicate-free through a full cycle and through the deletion paths. -/
theorem filename_uniqueness_preserved_witness :
    ((([⟨0, "a.html", "t", "L"⟩] : List PostRecord).map (fun p => p.filename)).Nodup)
    ∧ (((("b.html" : String) ∉ ([⟨0, "a.html", "t", "L"⟩]
          : List PostRecord).map (fun p => p.filename)) →
        ((mainLoopHist true (fun _ => true) ["L"] [⟨0, "a.html", "t", "L"⟩]
          ⟨1, "b.html", "t", "L"⟩).1.map (fun p => p.filename)).Nodup)
      ∧ ((rotationStep (fun _ => true) 2 ["L"]
          [⟨0, "a.html", "t", "L"⟩]).1.map (fun p => p.filename)).Nodup
      ∧ ((delete_post true [⟨0, "a.html", "t", "L"⟩] "a.html").map
          (fun p => p.filename)).Nodup
      ∧ ((delete_all_posts (some ["index.html", "a.html"]) true (fun _ => true)
          [⟨0, "a.html", "t", "L"⟩]).history.map (fun p => p.filename)).Nodup) :=
  ⟨by decide,
    filename_uniqueness_preserved (fun _ => true) 2 ["L"] [⟨0, "a.html", "t", "L"⟩]
      ⟨1, "b.html", "t", "L"⟩ true true "a.html" (some ["index.html", "a.html"]) true
      (fun _ => true) (by decide)⟩

/-! ### Temporal ordering of deploy/append and evict/remove (claim C4) -/

theorem appendEv_not_mem_evictLoop (e : String → Bool) (r : PostRecord) :
    ∀ (ds hist : List PostRecord), Ev.appendEv r ∉ (evictLoop e hist ds).2 := by
  intro ds
  induction ds with
  | nil => intro hist h; simp [evictLoop] at h
  | cons d rest ih =>
    intro hist h
    by_cases he : e d.filename
    · simp only [evictLoop, he, if_pos, List.mem_cons] at h
      rcases h with h1 | h2 | h3
      · cases h1
      · cases h2
      · exact ih _ h3
    · simp only [evictLoop, he] at h
      simp at h

theorem appendEv_not_mem_rotationStep (e : String → Bool) (cap : Nat) (r : PostRecord) :
    ∀ (P : List String) (hist : List PostRecord),
    Ev.appendEv r ∉ (rotationStep e cap P hist).2 := by
  intro P
  induction P with
  | nil => intro hist h; simp [rotationStep] at h
  | cons l rest ih =>
    intro hist h
    rcases List.mem_append.mp (by simpa [rotationStep] using h) with hx | hx
    · unfold rotateProduct at hx
      by_cases hc : cap < (productGroup l hist).length
      · simp only [hc, if_pos] at hx
        exact appendEv_not_mem_evictLoop e r _ hist hx
      · simp only [hc, if_neg, not_false_iff] at hx
        simp at hx
    · exact ih _ hx

theorem appendGuarded_of_no_append :
    ∀ (l : List Ev), (∀ r, Ev.appendEv r ∉ l) → ∀ dep, appendGuarded dep l := by
  intro l
  induction l with
  | nil => intro _ dep; trivial
  | cons e rest ih =>
    intro hno dep
    have hrest : ∀ r, Ev.appendEv r ∉ rest := fun r hr => hno r (by simp [hr])
    match e with
    | Ev.deployEv f true => exact ih hrest _
    | Ev.deployEv f false => exact ih hrest _
    | Ev.appendEv r => exact absurd (by simp : Ev.appendEv r ∈ Ev.appendEv r :: rest) (hno r)
    | Ev.evictEv f ok => exact ih hrest _
    | Ev.removeEv f => exact ih hrest _
    | Ev.saveEv => exact ih hrest _

theorem removeGuarded_append :
    ∀ (l₁ l₂ : List Ev) (ok : List String), removeGuarded ok l₁ →
    (∀ ok2, removeGuarded ok2 l₂) → removeGuarded ok (l₁ ++ l₂) := by
  intro l₁
  induction l₁ with
  | nil => intro l₂ ok _ h2; exact h2 ok
  | cons e rest ih =>
    intro l₂ ok h1 h2
    match e with
    | Ev.deployEv f b => exact ih l₂ ok h1 h2
    | Ev.appendEv r => exact ih l₂ ok h1 h2
    | Ev.evictEv f true => exact ih l₂ (f :: ok) h1 h2
    | Ev.evictEv f false => exact ih l₂ ok h1 h2
    | Ev.removeEv f => exact ⟨h1.1, ih l₂ ok h1.2 h2⟩
    | Ev.saveEv => exact ih l₂ ok h1 h2

theorem removeGuarded_evictLoop (e : String → Bool) :
    ∀ (ds hist : List PostRecord) (ok : List String),
    removeGuarded ok (evictLoop e hist ds).2 := by
  intro ds
  induction ds with
  | nil => intro hist ok; simp only [evictLoop]; trivial
  | cons d rest ih =>
    intro hist ok
    by_cases he : e d.filename
    · simp only [evictLoop, he, if_pos]
      show removeGuarded (d.filename :: ok) (Ev.removeEv d.filename :: _)
      exact ⟨by simp, ih _ _⟩
    · simp only [evictLoop, he]
      show removeGuarded ok [Ev.evictEv d.filename false]
      trivial

theorem removeGuarded_rotationStep (e : String → Bool) (cap : Nat) :
    ∀ (P : List String) (hist : List PostRecord) (ok : List String),
    removeGuarded ok (rotationStep e cap P hist).2 := by
  intro P
  induction P with
  | nil => intro hist ok; simp only [rotationStep]; trivial
  | cons l rest ih =>
    intro hist ok
    show removeGuarded ok ((rotateProduct e cap hist l).2 ++ _)
    refine removeGuarded_append _ _ ok ?_ (fun ok2 => ih _ ok2)
    unfold rotateProduct
    by_cases hc : cap < (productGroup l hist).length
    · simp only [hc, if_pos]
      exact removeGuarded_evictLoop e _ hist ok
    · simp only [hc, if_neg, not_false_iff]
      trivial

/-- Claim C4: in a publish cycle a record is appended to the history only
after `deploy_to_ftp` succeeded for its filename, and a record is removed
from the history — by rotation or by `delete_post` — only after the
delete call for its filename returned success (delete-then-forget). -/
theorem publish_and_evict_ordering
    (deployOk : Bool) (evict : String → Bool) (portfolio : List String)
    (hist : List PostRecord) (newRec : PostRecord) (diskOk : Bool) (f : String) :
    appendGuarded [] (mainLoopHist deployOk evict portfolio hist newRec).2
    ∧ removeGuarded [] (mainLoopHist deployOk evict portfolio hist newRec).2
    ∧ removeGuarded [] (deletePostEv diskOk f) := by
  refine ⟨?_, ?_, ?_⟩
  · by_cases hd : deployOk
    · subst hd
      unfold mainLoopHist
      simp only [if_pos]
      show appendGuarded [newRec.filename] (Ev.appendEv newRec :: _)
      refine ⟨by simp, ?_⟩
      refine appendGuarded_of_no_append _ ?_ _
      intro r hr
      rcases List.mem_append.mp hr with hx | hx
      · exact appendEv_not_mem_rotationStep evict 2 r portfolio _ hx
      · simp at hx
    · simp only [Bool.not_eq_true] at hd
      subst hd
      unfold mainLoopHist
      simp only [Bool.false_eq_true, if_neg, not_false_iff, if_false]
      trivial
  · by_cases hd : deployOk
    · subst hd
      unfold mainLoopHist
      simp only [if_pos]
      show removeGuarded [] (Ev.deployEv newRec.filename true :: Ev.appendEv newRec :: _)
      show removeGuarded [] (_ ++ [Ev.saveEv])
      refine removeGuarded_append _ _ [] (removeGuarded_rotationStep evict 2 portfolio _ [])
        (fun ok2 => ?_)
      show removeGuarded ok2 [Ev.saveEv]
      trivial
    · simp only [Bool.not_eq_true] at hd
      subst hd
      unfold mainLoopHist
      simp only [Bool.false_eq_true, if_neg, not_false_iff, if_false]
      trivial
  · unfold deletePostEv
    by_cases hd : diskOk
    · subst hd
      simp only [if_pos]
      show removeGuarded ["f"].tail (Ev.evictEv f true :: [Ev.removeEv f, Ev.saveEv])
      show removeGuarded [f] [Ev.removeEv f, Ev.saveEv]
      exact ⟨by simp, trivial⟩
    · simp only [Bool.not_eq_true] at hd
      subst hd
      simp only [Bool.false_eq_true, if_neg, not_false_iff, if_false]
      trivial

/-! ### The throttling gate (claim C5) -/

/-- Claim C5: for a history sorted ascending by timestamp, the gate
returns `true` exactly when (1) the history is empty or the minimum delay
since the last record has elapsed, and (2) strictly fewer than
`max_per_24h` records lie within the trailing 24 hours (1440 minutes) of
`now`; failing either condition alone forces `false`. -/
theorem is_time_to_post_iff (now minDelay maxPosts : Nat) (hist : List PostRecord)
    (hsorted : hist.Pairwise (fun a b => a.timestamp ≤ b.timestamp)) :
    is_time_to_post now minDelay maxPosts hist = true ↔
      ((hist = [] ∨ ∃ lastPost, hist.getLast? = some lastPost
          ∧ lastPost.timestamp + minDelay ≤ now)
        ∧ (hist.filter (fun r => now < r.timestamp + 1440)).length < maxPosts) := by
  have hcount : (hist.filter (fun r => now - r.timestamp < 1440)).length
      = (hist.filter (fun r => now < r.timestamp + 1440)).length := by
    have : hist.filter (fun r => now - r.timestamp < 1440)
        = hist.filter (fun r => now < r.timestamp + 1440) := by
      refine List.filter_congr fun a _ => ?_
      simp only [decide_eq_decide]
      omega
    rw [this]
  unfold is_time_to_post
  match hlast : hist.getLast? with
  | some lastPost =>
    have hne : hist ≠ [] := by
      intro hh
      rw [hh] at hlast
      simp at hlast
    by_cases h1 : now < lastPost.timestamp + minDelay
    · simp only [h1, if_pos]
      constructor
      · intro hfalse
        cases hfalse
      · rintro ⟨h2 | ⟨lp, hlp, hle⟩, _⟩
        · exact absurd h2 hne
        · cases hlp
          exact absurd hle (by omega)
    · simp only [h1, if_neg, not_false_iff]
      by_cases h2 : maxPosts ≤ (hist.filter (fun r => now - r.timestamp < 1440)).length
      · simp only [h2, if_pos]
        constructor
        · intro hfalse
          cases hfalse
        · rintro ⟨_, hlt⟩
          rw [hcount] at h2
          omega
      · simp only [h2, if_neg, not_false_iff]
        constructor
        · intro _
          refine ⟨Or.inr ⟨lastPost, rfl, by omega⟩, ?_⟩
          rw [← hcount]
          omega
        · intro _
          trivial
  | none =>
    have hnil : hist = [] := List.getLast?_eq_none_iff.mp hlast
    subst hnil
    simp
    omega

/-- Witness for C5: with one post at minute 100, `now` at minute 1000,
a 240-minute delay and a cap of 4 the gate opens, and the
characterisation holds. -/
theorem is_time_to_post_iff_witness :
    (([⟨100, "a", "t", "L"⟩] : List PostRecord).Pairwise
      (fun a b => a.timestamp ≤ b.timestamp))
    ∧ (is_time_to_post 1000 240 4 [⟨100, "a", "t", "L"⟩] = true ↔
        ((([⟨100, "a", "t", "L"⟩] : List PostRecord) = []
            ∨ ∃ lastPost, ([⟨100, "a", "t", "L"⟩] : List PostRecord).getLast? = some lastPost
              ∧ lastPost.timestamp + 240 ≤ 1000)
          ∧ (([⟨100, "a", "t", "L"⟩] : List PostRecord).filter
              (fun r => 1000 < r.timestamp + 1440)).length < 4)) :=
  ⟨by decide, is_time_to_post_iff 1000 240 4 [⟨100, "a", "t", "L"⟩] (by decide)⟩

/-! ### Bulk deletion (claim C7) -/

theorem deleteLoop_sub (delOk : String → Bool) :
    ∀ files : List String, ∀ f ∈ (deleteLoop delOk files).1, f ∈ files := by
  intro files
  induction files with
  | nil => intro f hf; simp [deleteLoop] at hf
  | cons x rest ih =>
    intro f hf
    by_cases hx : delOk x
    · simp only [deleteLoop, hx, if_pos, List.mem_cons] at hf
      rcases hf with hf | hf
      · simp [hf]
      · simp [ih f hf]
    · simp only [deleteLoop, hx] at hf
      simp at hf
      simp [hf]

theorem deleteLoop_all_true (delOk : String → Bool) :
    ∀ files : List String, (∀ f ∈ files, delOk f = true) →
    deleteLoop delOk files = (files, true) := by
  intro files
  induction files with
  | nil => intro _; rfl
  | cons x rest ih =>
    intro hall
    have hx : delOk x = true := hall x (by simp)
    simp only [deleteLoop, hx, if_pos]
    rw [ih (fun f hf => hall f (by simp [hf]))]

theorem deleteLoop_split (delOk : String → Bool) (bad : String)
    (hbad : delOk bad = false) :
    ∀ (pre post : List String), (∀ f ∈ pre, delOk f = true) →
    deleteLoop delOk (pre ++ bad :: post) = (pre ++ [bad], false) := by
  intro pre
  induction pre with
  | nil => intro post _; simp [deleteLoop, hbad]
  | cons x rest ih =>
    intro post hpre
    have hx : delOk x = true := hpre x (by simp)
    simp only [List.cons_append, deleteLoop, hx, if_pos, List.append_eq]
    rw [ih post (fun f hf => hpre f (by simp [hf]))]

/-- Claim C7: disk-authoritative bulk deletion never attempts the
protected files `index.html` and `disclosure.html`; on the first failed
delete it stops (attempting exactly the successful prefix plus the
failing file) and leaves the history file unchanged without republishing;
when every deletion succeeds after confirmation it clears the history and
republishes the empty index — and it republishes only together with a
cleared history. -/
theorem delete_all_posts_spec (listing : Option (List String)) (confirmed : Bool)
    (delOk : String → Bool) (hist : List PostRecord) :
    (∀ f ∈ (delete_all_posts listing confirmed delOk hist).attempted,
        f ≠ "index.html" ∧ f ≠ "disclosure.html")
    ∧ (∀ files (pre post : List String) (bad : String),
        listing = some files →
        files.filter (fun f => !(f == "index.html") && !(f == "disclosure.html"))
          = pre ++ bad :: post →
        (∀ f ∈ pre, delOk f = true) → delOk bad = false → confirmed = true →
        (delete_all_posts listing confirmed delOk hist).attempted = pre ++ [bad]
          ∧ (delete_all_posts listing confirmed delOk hist).history = hist
          ∧ (delete_all_posts listing confirmed delOk hist).reindexed = false)
    ∧ (∀ files, listing = some files → confirmed = true →
        files.filter (fun f => !(f == "index.html") && !(f == "disclosure.html")) ≠ [] →
        (∀ f ∈ files.filter (fun f => !(f == "index.html") && !(f == "disclosure.html")),
          delOk f = true) →
        (delete_all_posts listing confirmed delOk hist).history = []
          ∧ (delete_all_posts listing confirmed delOk hist).reindexed = true)
    ∧ ((delete_all_posts listing confirmed delOk hist).reindexed = true →
        (delete_all_posts listing confirmed delOk hist).history = []) := by
  refine ⟨?_, ?_, ?_, ?_⟩
  · intro f hf
    rcases listing with _ | files
    · simp [delete_all_posts] at hf
    · unfold delete_all_posts at hf
      simp only at hf
      by_cases h1 : files.filter (fun f => !(f == "index.html") && !(f == "disclosure.html")) = []
      · simp only [h1, if_pos] at hf
        simp at hf
      · simp only [h1, if_neg, not_false_iff] at hf
        by_cases h2 : confirmed
        · simp only [h2, Bool.not_true] at hf
          have hmem : f ∈ files.filter
              (fun f => !(f == "index.html") && !(f == "disclosure.html")) := by
            by_cases h3 : (deleteLoop delOk (files.filter
                (fun f => !(f == "index.html") && !(f == "disclosure.html")))).2
            · simp only [h3, if_pos] at hf
              exact deleteLoop_sub delOk _ f hf
            · simp only [h3, Bool.false_eq_true, if_neg, not_false_iff, if_false] at hf
              exact deleteLoop_sub delOk _ f hf
          have := (List.mem_filter.mp hmem).2
          constructor
          · intro hh
            rw [hh] at this
            simp at this
          · intro hh
            rw [hh] at this
            simp at this
        · simp only [h2, Bool.not_false, if_pos, if_true] at hf
          simp at hf
  · intro files pre post bad hlis hsplit hpre hbad hconf
    subst hlis
    subst hconf
    have hloop := deleteLoop_split delOk bad hbad pre post hpre
    unfold delete_all_posts
    simp [hsplit, hloop]
  · intro files hlis hconf hne hall
    subst hlis
    subst hconf
    have hloop := deleteLoop_all_true delOk _ hall
    unfold delete_all_posts
    simp [hne, hloop]
  · intro hre
    rcases delete_all_posts_history_cases listing confirmed delOk hist with hc | hc
    · -- if the history survived, show the code also did not reindex unless it cleared
      rcases listing with _ | files
      · simp [delete_all_posts] at hre
      · unfold delete_all_posts at hre ⊢
        simp only at hre ⊢
        by_cases h1 : files.filter (fun f => !(f == "index.html") && !(f == "disclosure.html")) = []
        · simp only [h1, if_pos] at hre
          cases hre
        · simp only [h1, if_neg, not_false_iff] at hre ⊢
          by_cases h2 : confirmed
          · simp only [h2, Bool.not_true] at hre ⊢
            by_cases h3 : (deleteLoop delOk (files.filter
                (fun f => !(f == "index.html") && !(f == "disclosure.html")))).2
            · simp [h3]
            · simp only [h3, Bool.false_eq_true, if_neg, not_false_iff, if_false] at hre
          · simp only [h2, Bool.not_false, if_pos, if_true] at hre
            cases hre
    · exact hc

/-! ### `delete_from_ftp` and missing remote files (claim C9) -/

/-- Claim C9: `delete_from_ftp` reports success exactly on an actual
deletion or on a 550 `error_perm` (file absent on the server) with the
configuration keys present — every other outcome yields `False` — and
rotation therefore treats an already-missing file as a confirmed eviction
and drops its record from the working history. -/
theorem delete_from_ftp_spec (cfgOk : Bool) (outcome : DelOutcome) :
    (delete_from_ftp cfgOk outcome = true ↔
      (cfgOk = true ∧ (outcome = DelOutcome.deleted ∨ outcome = DelOutcome.permErr true)))
    ∧ (∀ (hist : List PostRecord) (d : PostRecord),
        (evictLoop (fun _ => delete_from_ftp true (DelOutcome.permErr true)) hist [d]).1
          = hist.filter (fun p => !(p.filename == d.filename)))
    ∧ (∀ (hist : List PostRecord) (d : PostRecord),
        d ∉ (evictLoop (fun _ => delete_from_ftp true (DelOutcome.permErr true)) hist [d]).1) := by
  refine ⟨?_, ?_, ?_⟩
  · cases cfgOk
    · simp [delete_from_ftp]
    · cases outcome with
      | deleted => simp [delete_from_ftp]
      | permErr b => cases b <;> simp [delete_from_ftp]
      | otherFtpErr => simp [delete_from_ftp]
      | unexpectedErr => simp [delete_from_ftp]
  · intro hist d
    simp [evictLoop, delete_from_ftp]
  · intro hist d hmem
    rw [(by simp [evictLoop, delete_from_ftp] :
        (evictLoop (fun _ => delete_from_ftp true (DelOutcome.permErr true)) hist [d]).1
          = hist.filter (fun p => !(p.filename == d.filename)))] at hmem
    have := (List.mem_filter.mp hmem).2
    simp at this

/-! ### `sanitize_filename` (claim C10) -/

theorem uint32_le_iff (a b : UInt32) : a ≤ b ↔ a.toNat ≤ b.toNat := by
  rw [UInt32.le_def]; rfl

theorem char_eq_iff_toNat (c d : Char) : c = d ↔ c.toNat = d.toNat := by
  constructor
  · intro h; rw [h]
  · intro h; exact Char.ext (UInt32.ext h)

theorem charOfNat_toNat (n : Nat) (h : n < 55296) : (Char.ofNat n).toNat = n := by
  have hv : n.isValidChar := Or.inl h
  unfold Char.ofNat
  rw [dif_pos hv]
  rfl

theorem char_toLower_spec (c : Char) :
    (65 ≤ c.toNat ∧ c.toNat ≤ 90 ∧ (Char.toLower c).toNat = c.toNat + 32)
    ∨ Char.toLower c = c := by
  have hdef : Char.toLower c
      = if c.toNat ≥ 65 ∧ c.toNat ≤ 90 then Char.ofNat (c.toNat + 32) else c := rfl
  by_cases h : 65 ≤ c.toNat ∧ c.toNat ≤ 90
  · left
    refine ⟨h.1, h.2, ?_⟩
    rw [hdef, if_pos ⟨h.1, h.2⟩]
    exact charOfNat_toNat _ (by omega)
  · right
    rw [hdef, if_neg h]

theorem char_isUpper_iff (c : Char) : c.isUpper = true ↔ 65 ≤ c.toNat ∧ c.toNat ≤ 90 := by
  simp only [Char.isUpper, Bool.and_eq_true, decide_eq_true_eq, ge_iff_le, uint32_le_iff]
  exact Iff.rfl

theorem char_isLower_iff (c : Char) : c.isLower = true ↔ 97 ≤ c.toNat ∧ c.toNat ≤ 122 := by
  simp only [Char.isLower, Bool.and_eq_true, decide_eq_true_eq, ge_iff_le, uint32_le_iff]
  exact Iff.rfl

theorem char_isDigit_iff (c : Char) : c.isDigit = true ↔ 48 ≤ c.toNat ∧ c.toNat ≤ 57 := by
  simp only [Char.isDigit, Bool.and_eq_true, decide_eq_true_eq, ge_iff_le, uint32_le_iff]
  exact Iff.rfl

theorem char_isWs_iff (c : Char) :
    isWsC c = true ↔ (c.toNat = 32 ∨ c.toNat = 9 ∨ c.toNat = 13 ∨ c.toNat = 10) := by
  unfold isWsC
  simp only [Char.isWhitespace, Bool.or_eq_true, decide_eq_true_eq]
  rw [char_eq_iff_toNat, char_eq_iff_toNat, char_eq_iff_toNat, char_eq_iff_toNat]
  have h32 : (' ' : Char).toNat = 32 := by decide
  have h9 : ('\t' : Char).toNat = 9 := by decide
  have h13 : ('\x0d' : Char).toNat = 13 := by decide
  have h10 : ('\n' : Char).toNat = 10 := by decide
  rw [h32, h9, h13, h10]
  tauto

theorem char_isWordC_iff (c : Char) :
    isWordC c = true ↔ ((65 ≤ c.toNat ∧ c.toNat ≤ 90) ∨ (97 ≤ c.toNat ∧ c.toNat ≤ 122)
      ∨ (48 ≤ c.toNat ∧ c.toNat ≤ 57) ∨ c.toNat = 95) := by
  unfold isWordC
  simp only [Char.isAlphanum, Char.isAlpha, Bool.or_eq_true, beq_iff_eq,
    char_isUpper_iff, char_isLower_iff, char_isDigit_iff]
  rw [char_eq_iff_toNat]
  constructor
  · rintro (((h | h) | h) | h)
    · exact Or.inl h
    · exact Or.inr (Or.inl h)
    · exact Or.inr (Or.inr (Or.inl h))
    · exact Or.inr (Or.inr (Or.inr h))
  · rintro (h | h | h | h)
    · exact Or.inl (Or.inl (Or.inl h))
    · exact Or.inl (Or.inl (Or.inr h))
    · exact Or.inl (Or.inr h)
    · exact Or.inr h

theorem toLower_word (c : Char) (h : isWordC c = true) :
    isWordC (Char.toLower c) = true := by
  rcases char_toLower_spec c with ⟨_, _, hn⟩ | hc
  · rw [char_isWordC_iff, hn]
    omega
  · rw [hc]; exact h

theorem toLower_not_ws (c : Char) (h : isWsC c = false) :
    isWsC (Char.toLower c) = false := by
  rcases char_toLower_spec c with ⟨h1, h2, hn⟩ | hc
  · rw [← Bool.not_eq_true, char_isWs_iff, hn]
    omega
  · rw [hc]; exact h

theorem toLower_hyphen_iff (c : Char) : Char.toLower c = '-' ↔ c = '-' := by
  rcases char_toLower_spec c with ⟨h1, h2, hn⟩ | hc
  · rw [char_eq_iff_toNat, char_eq_iff_toNat, hn]
    have h45 : ('-' : Char).toNat = 45 := by decide
    rw [h45]
    constructor <;> intro hh <;> omega
  · rw [hc]

theorem mem_repSp (l : List Char) :
    ∀ c ∈ repSp l, c = '-' ∨ (c ∈ l ∧ isWsC c = false) := by
  induction l using repSp.induct with
  | case1 => intro c hc; simp [repSp] at hc
  | case2 c rest hws ih =>
    intro x hx
    rw [repSp, if_pos hws] at hx
    rcases List.mem_cons.mp hx with h | h
    · exact Or.inl h
    · rcases ih x h with h2 | ⟨h2, h3⟩
      · exact Or.inl h2
      · exact Or.inr ⟨by simp [(List.dropWhile_sublist _).subset h2], h3⟩
  | case3 c rest hws ih =>
    intro x hx
    rw [repSp, if_neg hws] at hx
    rcases List.mem_cons.mp hx with h | h
    · subst h
      exact Or.inr ⟨by simp, by simpa using hws⟩
    · rcases ih x h with h2 | ⟨h2, h3⟩
      · exact Or.inl h2
      · exact Or.inr ⟨by simp [h2], h3⟩

theorem mem_collHy (l : List Char) : ∀ c ∈ collHy l, c = '-' ∨ c ∈ l := by
  induction l using collHy.induct with
  | case1 => intro c hc; simp [collHy] at hc
  | case2 c rest hhy ih =>
    intro x hx
    rw [collHy, if_pos hhy] at hx
    rcases List.mem_cons.mp hx with h | h
    · exact Or.inl h
    · rcases ih x h with h2 | h2
      · exact Or.inl h2
      · exact Or.inr (by simp [(List.dropWhile_sublist _).subset h2])
  | case3 c rest hhy ih =>
    intro x hx
    rw [collHy, if_neg hhy] at hx
    rcases List.mem_cons.mp hx with h | h
    · exact Or.inr (by simp [h])
    · rcases ih x h with h2 | h2
      · exact Or.inl h2
      · exact Or.inr (by simp [h2])

theorem collHy_head (l : List Char) : (collHy l).head? = l.head? := by
  match l with
  | [] => rw [collHy]
  | c :: rest =>
    by_cases hc : (c == '-') = true
    · rw [collHy, if_pos hc]
      simp [beq_iff_eq.mp hc]
    · rw [collHy, if_neg hc]
      simp

theorem chain_collHy (l : List Char) :
    (collHy l).Chain' (fun a b => ¬(a = '-' ∧ b = '-')) := by
  induction l using collHy.induct with
  | case1 => simp [collHy]
  | case2 c rest hhy ih =>
    rw [collHy, if_pos hhy]
    rw [List.chain'_cons']
    refine ⟨?_, ih⟩
    intro y hy
    rw [collHy_head] at hy
    intro ⟨_, hy2⟩
    have hyd : (rest.dropWhile (fun d => d == '-')).head? = some y := hy
    have := List.head?_dropWhile_not (fun d => d == '-') rest
    rw [hyd] at this
    rw [hy2] at this
    simp at this
  | case3 c rest hhy ih =>
    rw [collHy, if_neg hhy]
    rw [List.chain'_cons']
    refine ⟨?_, ih⟩
    intro y _
    intro ⟨hy1, _⟩
    rw [hy1] at hhy
    simp at hhy

theorem dropTrail_pre (p : Char → Bool) (l : List Char) : dropTrail p l <+: l := by
  refine List.reverse_suffix.mp ?_
  unfold dropTrail
  rw [List.reverse_reverse]
  exact List.dropWhile_suffix p

theorem head_of_pre {l m : List Char} {c : Char} (hp : l <+: m)
    (hc : l.head? = some c) : m.head? = some c := by
  rcases hp with ⟨r, rfl⟩
  match l, hc with
  | x :: t, hc => simpa using hc

theorem head_dropWhile_false (p : Char → Bool) (l : List Char) (c : Char)
    (hc : (l.dropWhile p).head? = some c) : p c = false := by
  have := List.head?_dropWhile_not p l
  rw [hc] at this
  exact this

/-- Claim C10: for every input, `sanitize_filename` yields at most 50
characters, none of them whitespace, each a word character (alphanumeric
or underscore) or a hyphen, with no two consecutive hyphens and no
leading hyphen — so `<result>.html` is a single safe path segment. -/
theorem sanitize_filename_spec (text : List Char) :
    (sanitize_filename text).length ≤ 50
    ∧ (∀ c ∈ sanitize_filename text, isWsC c = false)
    ∧ (∀ c ∈ sanitize_filename text, isWordC c = true ∨ c = '-')
    ∧ (sanitize_filename text).Chain' (fun a b => ¬(a = '-' ∧ b = '-'))
    ∧ (∀ c, (sanitize_filename text).head? = some c → c ≠ '-') := by
  have hmem4 : ∀ c, c ∈ stripHy (collHy (repSp (text.filter
      (fun c => isWordC c || isWsC c || c == '-')))) →
      (isWordC c = true ∨ c = '-') ∧ isWsC c = false := by
    intro c hc
    have hc3 : c ∈ collHy (repSp (text.filter
        (fun c => isWordC c || isWsC c || c == '-'))) := by
      have h1 : c ∈ dropTrail (fun d => d == '-') ((collHy (repSp (text.filter
          (fun c => isWordC c || isWsC c || c == '-')))).dropWhile (fun d => d == '-')) := hc
      have h2 := (dropTrail_pre (fun d => d == '-') _).sublist.subset h1
      exact (List.dropWhile_sublist _).subset h2
    rcases mem_collHy _ c hc3 with h | h
    · exact ⟨Or.inr h, by rw [h]; decide⟩
    · rcases mem_repSp _ c h with h2 | ⟨h2, h3⟩
      · exact ⟨Or.inr h2, by rw [h2]; decide⟩
      · have := (List.mem_filter.mp h2).2
        simp only [Bool.or_eq_true, beq_iff_eq] at this
        rcases this with (hw | hws) | hhy
        · exact ⟨Or.inl hw, h3⟩
        · rw [hws] at h3; cases h3
        · exact ⟨Or.inr hhy, h3⟩
  have hchain4 : (stripHy (collHy (repSp (text.filter
      (fun c => isWordC c || isWsC c || c == '-'))))).Chain'
      (fun a b => ¬(a = '-' ∧ b = '-')) := by
    have h3 := chain_collHy (repSp (text.filter (fun c => isWordC c || isWsC c || c == '-')))
    have h4 := h3.suffix (List.dropWhile_suffix (fun d => d == '-'))
    exact List.Chain'.prefix h4 (dropTrail_pre _ _)
  have hhead4 : ∀ c, (stripHy (collHy (repSp (text.filter
      (fun c => isWordC c || isWsC c || c == '-'))))).head? = some c → c ≠ '-' := by
    intro c hc
    have h1 : ((collHy (repSp (text.filter
        (fun c => isWordC c || isWsC c || c == '-')))).dropWhile
        (fun d => d == '-')).head? = some c :=
      head_of_pre (dropTrail_pre _ _) hc
    have := head_dropWhile_false _ _ c h1
    simpa using this
  refine ⟨?_, ?_, ?_, ?_, ?_⟩
  · exact List.length_take_le _ _
  · intro c hc
    have hc2 := (List.take_prefix 50 _).sublist.subset hc
    rcases List.mem_map.mp hc2 with ⟨d, hd, hdc⟩
    have := hmem4 d hd
    rw [← hdc]
    exact toLower_not_ws d this.2
  · intro c hc
    have hc2 := (List.take_prefix 50 _).sublist.subset hc
    rcases List.mem_map.mp hc2 with ⟨d, hd, hdc⟩
    have := hmem4 d hd
    rw [← hdc]
    rcases this.1 with hw | hh
    · exact Or.inl (toLower_word d hw)
    · exact Or.inr (by rw [hh]; decide)
  · refine List.Chain'.prefix ?_ (List.take_prefix 50 _)
    rw [List.chain'_map]
    refine hchain4.imp ?_
    intro a b hab ⟨ha, hb⟩
    exact hab ⟨(toLower_hyphen_iff a).mp ha, (toLower_hyphen_iff b).mp hb⟩
  · intro c hc
    have h1 : ((stripHy (collHy (repSp (text.filter
        (fun c => isWordC c || isWsC c || c == '-'))))).map Char.toLower).head? = some c :=
      head_of_pre (List.take_prefix 50 _) hc
    rw [List.head?_map] at h1
    match hh : (stripHy (collHy (repSp (text.filter
        (fun c => isWordC c || isWsC c || c == '-'))))).head? with
    | none => rw [hh] at h1; cases h1
    | some d =>
      rw [hh] at h1
      have hd := hhead4 d hh
      have h2 : Char.toLower d = c := by
        cases h1
        rfl
      intro hcc
      rw [hcc] at h2
      exact hd ((toLower_hyphen_iff d).mp h2)

/-! ### History file round trip (claim C6) -/

theorem digitChar_isDigit (d : Nat) (h : d < 10) : (Nat.digitChar d).isDigit = true := by
  interval_cases d <;> decide

theorem digitChar_val (d : Nat) (h : d < 10) :
    (Nat.digitChar d).toNat - ('0' : Char).toNat = d := by
  interval_cases d <;> decide

theorem natToDecAux_digits : ∀ n : Nat, ∀ c ∈ natToDecAux n, c.isDigit = true := by
  intro n
  induction n using natToDecAux.induct with
  | case1 => intro c hc; rw [natToDecAux] at hc; simp at hc
  | case2 n hn ih =>
    intro c hc
    rw [natToDecAux, if_neg hn] at hc
    rcases List.mem_append.mp hc with h | h
    · exact ih c h
    · simp at h
      rw [h]
      exact digitChar_isDigit _ (Nat.mod_lt _ (by decide))

theorem natToDec_digits (n : Nat) : ∀ c ∈ natToDec n, c.isDigit = true := by
  intro c hc
  unfold natToDec at hc
  by_cases h : n = 0
  · simp [h] at hc
    rw [hc]; decide
  · rw [if_neg h] at hc
    exact natToDecAux_digits n c hc

theorem natToDecAux_ne_nil (n : Nat) (hn : n ≠ 0) : natToDecAux n ≠ [] := by
  rw [natToDecAux, if_neg hn]
  simp

theorem natToDec_ne_nil (n : Nat) : natToDec n ≠ [] := by
  unfold natToDec
  by_cases h : n = 0
  · simp [h]
  · rw [if_neg h]
    exact natToDecAux_ne_nil n h

theorem parseDecAux_append (xs : List Char) :
    ∀ (acc : Nat) (ys : List Char),
    parseDecAux acc (xs ++ ys) = (parseDecAux acc xs).bind (fun a => parseDecAux a ys) := by
  induction xs with
  | nil => intro acc ys; simp [parseDecAux]
  | cons c rest ih =>
    intro acc ys
    by_cases hc : c.isDigit
    · simp only [List.cons_append, parseDecAux, hc, if_pos]
      exact ih _ ys
    · simp only [List.cons_append, parseDecAux, hc, if_neg, not_false_iff]
      rfl

theorem parseDecAux_natToDecAux : ∀ (n acc : Nat),
    parseDecAux acc (natToDecAux n) = some (acc * 10 ^ (natToDecAux n).length + n) := by
  intro n
  induction n using natToDecAux.induct with
  | case1 =>
    intro acc
    rw [natToDecAux]
    simp [parseDecAux]
  | case2 n hn ih =>
    intro acc
    rw [natToDecAux, if_neg hn]
    rw [parseDecAux_append, ih acc]
    have hd : (Nat.digitChar (n % 10)).isDigit = true :=
      digitChar_isDigit _ (Nat.mod_lt _ (by decide))
    have hv : (Nat.digitChar (n % 10)).toNat - ('0' : Char).toNat = n % 10 :=
      digitChar_val _ (Nat.mod_lt _ (by decide))
    simp only [Option.some_bind, parseDecAux, hd, if_pos]
    rw [List.length_append, List.length_cons, List.length_nil]
    congr 1
    rw [hv]
    have hlen : (natToDecAux (n / 10)).length + (0 + 1)
        = (natToDecAux (n / 10)).length + 1 := by omega
    rw [hlen, pow_succ, ← Nat.mul_assoc]
    generalize acc * 10 ^ (natToDecAux (n / 10)).length = B
    omega

theorem parseDec_natToDec (n : Nat) : parseDec (natToDec n) = some n := by
  unfold parseDec
  rw [if_neg (natToDec_ne_nil n)]
  unfold natToDec
  by_cases h : n = 0
  · simp [h, parseDecAux]
  · rw [if_neg h]
    rw [parseDecAux_natToDecAux n 0]
    simp

theorem dropPre_append (pat : List Char) :
    ∀ rest : List Char, dropPre pat (pat ++ rest) = some rest := by
  induction pat with
  | nil => intro rest; rfl
  | cons p ps ih =>
    intro rest
    simp only [List.cons_append, dropPre, if_pos]
    exact ih rest

theorem readStr_append (s : List Char) (hq : '"' ∉ s) :
    ∀ rest : List Char, readStr (s ++ '"' :: rest) = some (s, rest) := by
  induction s with
  | nil => intro rest; simp [readStr]
  | cons c t ih =>
    intro rest
    have hc : c ≠ '"' := fun hh => hq (by simp [hh])
    have ht : '"' ∉ t := fun hh => hq (by simp [hh])
    simp only [List.cons_append, readStr, hc, if_neg, not_false_iff, List.append_eq]
    rw [ih ht rest]
    rfl

theorem strMk_toList (s : String) : String.mk s.toList = s := rfl

theorem quote_not_digit (c : Char) (h : c.isDigit = true) : c ≠ '"' := by
  intro hh
  rw [hh] at h
  cases h

theorem stripWs_eq_nil_all_ws (l : List Char) (h : stripWs l = []) :
    ∀ c ∈ l, isWsC c = true := by
  intro c hc
  unfold stripWs dropTrail at h
  have h2 : (l.dropWhile isWsC).reverse.dropWhile isWsC = [] := by
    have := congrArg List.reverse h
    rwa [List.reverse_reverse, List.reverse_nil] at this
  have h3 : ∀ x ∈ (l.dropWhile isWsC).reverse, isWsC x = true :=
    List.dropWhile_eq_nil_iff.mp h2
  have h4 : ∀ x ∈ l.dropWhile isWsC, isWsC x = true := by
    intro x hx
    exact h3 x (by simp [hx])
  rcases List.mem_append.mp ((List.takeWhile_append_dropWhile isWsC l) ▸ hc) with hx | hx
  · exact List.mem_takeWhile_imp hx
  · exact h4 c hx

theorem dropWhile_no_pred (p : Char → Bool) (l : List Char)
    (h : ∀ c ∈ l, p c = false) : l.dropWhile p = l := by
  match l with
  | [] => rfl
  | c :: rest =>
    rw [List.dropWhile_cons, if_neg (by simp [h c (by simp)])]

theorem stripWs_no_ws (l : List Char) (h : ∀ c ∈ l, isWsC c = false) :
    stripWs l = l := by
  unfold stripWs dropTrail
  rw [dropWhile_no_pred isWsC l h]
  rw [dropWhile_no_pred isWsC l.reverse (fun c hc => h c (List.mem_reverse.mp hc))]
  exact List.reverse_reverse l

theorem digit_not_ws (c : Char) (h : c.isDigit = true) : isWsC c = false := by
  rw [char_isDigit_iff] at h
  rw [← Bool.not_eq_true, char_isWs_iff]
  omega

theorem parse_legacy_line (ts : Nat) :
    parse_history_line (natToDec ts) = some ⟨ts, "", "", ""⟩ := by
  unfold parse_history_line
  have hnb : '\x7b' ∉ natToDec ts := by
    intro hm
    have := natToDec_digits ts _ hm
    cases this
  rw [if_neg hnb]
  rw [stripWs_no_ws _ (fun c hc => digit_not_ws c (natToDec_digits ts c hc))]
  rw [parseDec_natToDec]
  rfl

theorem legacy_line_not_blank (ts : Nat) : stripWs (natToDec ts) ≠ [] := by
  rw [stripWs_no_ws _ (fun c hc => digit_not_ws c (natToDec_digits ts c hc))]
  exact natToDec_ne_nil ts

theorem parseJson_dump (r : PostRecord)
    (hfn : '"' ∉ r.filename.toList) (htt : '"' ∉ r.title.toList)
    (hpl : '"' ∉ r.product_link.toList) :
    parseJsonLine (dump_record r) = some r := by
  have hB : "\", \"filename\": \"".toList = '"' :: ", \"filename\": \"".toList := by decide
  have hC : "\", \"title\": \"".toList = '"' :: ", \"title\": \"".toList := by decide
  have hD : "\", \"product_link\": \"".toList
      = '"' :: ", \"product_link\": \"".toList := by decide
  have hE : "\"\x7d".toList = '"' :: ['\x7d'] := by decide
  have hqts : '"' ∉ natToDec r.timestamp := fun hm =>
    quote_not_digit _ (natToDec_digits _ _ hm) rfl
  unfold dump_record parseJsonLine
  rw [hB, hC, hD, hE]
  simp only [List.append_assoc, List.cons_append]
  rw [dropPre_append]
  simp only [Option.some_bind]
  rw [readStr_append _ hqts]
  simp only [Option.some_bind]
  rw [parseDec_natToDec]
  simp only [Option.some_bind]
  rw [dropPre_append]
  simp only [Option.some_bind]
  rw [readStr_append _ hfn]
  simp only [Option.some_bind]
  rw [dropPre_append]
  simp only [Option.some_bind]
  rw [readStr_append _ htt]
  simp only [Option.some_bind]
  rw [dropPre_append]
  simp only [Option.some_bind]
  rw [readStr_append _ hpl]
  simp only [Option.some_bind]
  simp [strMk_toList]

theorem dump_not_blank (r : PostRecord) : stripWs (dump_record r) ≠ [] := by
  intro h
  have hb : '\x7b' ∈ dump_record r := by
    unfold dump_record
    simp only [List.append_assoc, List.cons_append]
    have : "\x7b\"timestamp\": \"".toList = '\x7b' :: "\"timestamp\": \"".toList := by decide
    rw [this]
    simp
  have := stripWs_eq_nil_all_ws _ h _ hb
  cases this

theorem parse_dump (r : PostRecord)
    (hfn : '"' ∉ r.filename.toList) (htt : '"' ∉ r.title.toList)
    (hpl : '"' ∉ r.product_link.toList) :
    parse_history_line (dump_record r) = some r := by
  unfold parse_history_line
  have hb : '\x7b' ∈ dump_record r := by
    unfold dump_record
    simp only [List.append_assoc, List.cons_append]
    have : "\x7b\"timestamp\": \"".toList = '\x7b' :: "\"timestamp\": \"".toList := by decide
    rw [this]
    simp
  rw [if_pos hb]
  exact parseJson_dump r hfn htt hpl

/-- Claim C6: one `save_post_history` followed by `get_post_history`
returns the records unchanged (timestamps to the persisted precision,
filenames, titles and product links preserved, assuming the string fields
contain no quote, which `json.dumps` would otherwise escape); a file
mixing one legacy timestamp-only line and one JSON line loads both, the
legacy line becoming a record with empty filename and title; a malformed
line is skipped while the rest still loads. -/
theorem history_round_trip (records : List PostRecord)
    (hfree : ∀ r ∈ records, '"' ∉ r.filename.toList ∧ '"' ∉ r.title.toList
      ∧ '"' ∉ r.product_link.toList) :
    get_post_history (save_post_history records) = records
    ∧ (∀ (ts : Nat) (r : PostRecord),
        '"' ∉ r.filename.toList → '"' ∉ r.title.toList → '"' ∉ r.product_link.toList →
        get_post_history [natToDec ts, dump_record r]
          = [⟨ts, "", "", ""⟩, r])
    ∧ (∀ rest, get_post_history ("oops".toList :: rest) = get_post_history rest) := by
  refine ⟨?_, ?_, ?_⟩
  · induction records with
    | nil => rfl
    | cons r rest ih =>
      have hr := hfree r (by simp)
      unfold save_post_history
      rw [List.map_cons]
      unfold get_post_history
      rw [if_neg (by exact fun hh => dump_not_blank r hh)]
      rw [parse_dump r hr.1 hr.2.1 hr.2.2]
      have ihh := ih (fun x hx => hfree x (by simp [hx]))
      unfold save_post_history at ihh
      rw [ihh]
  · intro ts r h1 h2 h3
    unfold get_post_history
    rw [if_neg (legacy_line_not_blank ts)]
    rw [parse_legacy_line]
    unfold get_post_history
    rw [if_neg (by exact fun hh => dump_not_blank r hh)]
    rw [parse_dump r h1 h2 h3]
    rfl
  · intro rest
    have h1 : stripWs "oops".toList ≠ [] := by decide
    have hoops : parse_history_line "oops".toList = none := by decide
    conv_lhs => rw [get_post_history]
    rw [if_neg h1, hoops]

/-- Witness for C6: a concrete record round-trips, the mixed
legacy-plus-JSON file loads both lines, and a malformed line is
skipped. -/
theorem history_round_trip_witness :
    (∀ r ∈ ([⟨5, "a.html", "T", "L"⟩] : List PostRecord),
      '"' ∉ r.filename.toList ∧ '"' ∉ r.title.toList ∧ '"' ∉ r.product_link.toList)
    ∧ (get_post_history (save_post_history [⟨5, "a.html", "T", "L"⟩])
        = [⟨5, "a.html", "T", "L"⟩]
      ∧ (∀ (ts : Nat) (r : PostRecord),
          '"' ∉ r.filename.toList → '"' ∉ r.title.toList → '"' ∉ r.product_link.toList →
          get_post_history [natToDec ts, dump_record r]
            = [⟨ts, "", "", ""⟩, r])
      ∧ (∀ rest, get_post_history ("oops".toList :: rest) = get_post_history rest)) :=
  ⟨by decide, history_round_trip [⟨5, "a.html", "T", "L"⟩] (by decide)⟩

/-! ### Response post-processing of `_call_ollama` (claim C8) -/

theorem subAt_drop (pat : List Char) :
    ∀ (l : List Char) (i : Nat), subAt pat l = some i → pat <+: l.drop i := by
  intro l
  induction l with
  | nil =>
    intro i hi
    unfold subAt at hi
    by_cases hp : pat = []
    · rw [if_pos hp] at hi
      cases hi
      rw [hp]
      simp
    · rw [if_neg hp] at hi
      cases hi
  | cons c rest ih =>
    intro i hi
    unfold subAt at hi
    by_cases hp : pat.isPrefixOf (c :: rest)
    · rw [if_pos hp] at hi
      cases hi
      simpa using List.isPrefixOf_iff_prefix.mp hp
    · rw [if_neg hp] at hi
      match hj : subAt pat rest with
      | none => rw [hj] at hi; cases hi
      | some j =>
        rw [hj] at hi
        have hi2 : j + 1 = i := Option.some.inj hi
        cases hi2
        simpa using ih j hj

theorem stripWs_head_not_ws (l : List Char) (c : Char)
    (hc : (stripWs l).head? = some c) : isWsC c = false := by
  unfold stripWs at hc
  have h1 : (l.dropWhile isWsC).head? = some c :=
    head_of_pre (dropTrail_pre isWsC _) hc
  exact head_dropWhile_false isWsC l c h1

theorem stripWs_last_not_ws (l : List Char) (c : Char)
    (hc : (stripWs l).getLast? = some c) : isWsC c = false := by
  unfold stripWs dropTrail at hc
  rw [List.getLast?_eq_head?_reverse, List.reverse_reverse] at hc
  exact head_dropWhile_false isWsC _ c hc

theorem stripWs_of_ends (l : List Char)
    (hh : ∀ c, l.head? = some c → isWsC c = false)
    (hl : ∀ c, l.getLast? = some c → isWsC c = false) : stripWs l = l := by
  have h1 : l.dropWhile isWsC = l := by
    match l with
    | [] => rfl
    | c :: rest =>
      rw [List.dropWhile_cons, if_neg (by simp [hh c rfl])]
  have h2 : dropTrail isWsC l = l := by
    unfold dropTrail
    have h3 : l.reverse.dropWhile isWsC = l.reverse := by
      match hrev : l.reverse with
      | [] => rfl
      | c :: rest =>
        have hc : l.getLast? = some c := by
          rw [List.getLast?_eq_head?_reverse, hrev]
          rfl
        rw [List.dropWhile_cons, if_neg (by simp [hl c hc])]
    rw [h3, List.reverse_reverse]
  unfold stripWs
  rw [h1, h2]

theorem stripWs_idem (l : List Char) : stripWs (stripWs l) = stripWs l := by
  refine stripWs_of_ends _ (stripWs_head_not_ws l) (stripWs_last_not_ws l)

theorem getLast?_of_suffix {s m : List Char} (hs : s <:+ m) (hne : s ≠ []) :
    s.getLast? = m.getLast? := by
  rcases hs with ⟨pre, rfl⟩
  rw [List.getLast?_append]
  match s, hne with
  | c :: t, _ =>
    have : (c :: t).getLast? = some ((c :: t).getLast (by simp)) := List.getLast?_eq_getLast _ _
    rw [this]
    rfl

theorem stripWs_sliceTag (x : List Char) :
    stripWs (sliceTag (stripWs x)) = sliceTag (stripWs x) := by
  unfold sliceTag
  match hidx : subAt ['<'] (stripWs x) with
  | none => exact stripWs_idem x
  | some p =>
    by_cases hp : 0 < p
    · simp only [hp, if_pos]
      have hpre : ['<'] <+: (stripWs x).drop p := subAt_drop _ _ p hidx
      rcases hpre with ⟨r, hr⟩
      have hhead : ((stripWs x).drop p).head? = some '<' := by
        rw [← hr]
        rfl
      refine stripWs_of_ends _ ?_ ?_
      · intro c hc
        rw [hhead] at hc
        cases hc
        decide
      · intro c hc
        have hne : (stripWs x).drop p ≠ [] := by
          rw [← hr]; simp
        rw [getLast?_of_suffix (List.drop_suffix p _) hne] at hc
        exact stripWs_last_not_ws x c hc
    · simp only [hp, if_neg, not_false_iff]
      exact stripWs_idem x

/-- Counterexample to claim C8 as stated: for the response
` ```html``` ` (a fenced block with empty content) the post-processing
returns the empty string (`some []`), not null, even though what remains
after processing is empty. -/
theorem call_ollama_postprocess_empty_fence :
    call_ollama_postprocess "```html```".toList = some [] := by decide

/-- Claim C8 (amended): the post-processing returns null exactly when the
whitespace-stripped raw response is empty; otherwise, when a
```` ```html … ``` ```` fence is present it returns the stripped fenced
content with the first-`<` slice additionally applied to it (so leading
commentary inside the fence is also discarded, and an empty fence yields
the empty string rather than null); with no fence it returns the stripped
response with the first-`<` slice applied. -/
theorem call_ollama_postprocess_spec (resp : List Char) :
    (stripWs resp = [] → call_ollama_postprocess resp = none)
    ∧ (∀ inner, stripWs resp ≠ [] → extractFence (stripWs resp) = some inner →
        call_ollama_postprocess resp = some (sliceTag (stripWs inner)))
    ∧ (stripWs resp ≠ [] → extractFence (stripWs resp) = none →
        call_ollama_postprocess resp = some (sliceTag (stripWs resp))) := by
  refine ⟨?_, ?_, ?_⟩
  · intro h
    unfold call_ollama_postprocess
    rw [if_pos h]
  · intro inner hne hf
    unfold call_ollama_postprocess
    rw [if_neg hne, hf]
    simp only [stripWs_sliceTag]
  · intro hne hf
    unfold call_ollama_postprocess
    rw [if_neg hne, hf]
    simp only [stripWs_sliceTag]

end Blog
